import Mathlib

/-!
Verification of the ParallelDP repository (cordon-scheduler dynamic programming:
LIS, LCS and Convex-GLWS solvers over a prefix-minimum segment tree).

The C++ sources are embedded shallowly:
* machine `int` values become `Int`; `std::numeric_limits<int>::max()` becomes
  the literal `intMax`; `size_t` values become `Nat`, with the implicit
  conversion of a (possibly negative) `int` to `size_t` made explicit by
  `sizeTOfInt`;
* the mutable arrays (`tree`, `dp`, `now`, `D`, ...) become functions updated
  with `Function.update`, threaded through the recursions as explicit state;
* every loop and recursion is given an explicit structural `fuel` argument
  (chosen at each call site to dominate the recursion depth, e.g. the range
  width plus one for the tree recursions), so that the definitions compute by
  iota reduction; the fuel-exhausted branches are unreachable for the fuel
  supplied by the drivers, which the lemmas make precise via hypotheses such
  as `r - l < fuel`;
* the fork-join parallel spawns (`omp task` / `cilk_spawn`) always join before
  the parent combines, and the two spawned child recursions touch disjoint
  parts of the state, so their sequential elision (left child, then right
  child) is the embedded semantics.  The embedding additionally counts the
  spawn decisions (`spawns` fields) so that claims about the granularity
  policy can be stated.

Sequential semantics is shared verbatim between `SegmentTree` (segment_tree.h),
`SegmentTreeCilk` (segment_tree_cilk.h) and the `SegmentTreeOpenMP` used by the
LIS driver (the files differ only in the spawn primitive used;
`SegmentTreeOpenMP` is not present under src/, but the claims cite
segment_tree.h for its behaviour).  The embedding below follows
segment_tree.h: root node 0, children 2x+1 / 2x+2.
-/

namespace ParallelDP

/-- std::numeric_limits of int, the sentinel used by the int instantiations. -/
def intMax : Int := 2147483647

/-- Conversion of a C++ `int` to `size_t` (used implicitly by the comparison
`r - l > granularity` where `r`, `l` are `size_t` and `granularity` is a
possibly negative `int`). -/
def sizeTOfInt (g : Int) : Nat := (g % (2 : Int) ^ 64).toNat

/-- segment_tree.h line 51: index of the left child of node x. -/
def lc (x : Nat) : Nat := 2 * x + 1

/-- segment_tree.h line 58: index of the right child of node x. -/
def rc (x : Nat) : Nat := 2 * x + 2

/-- The spawn decision of segment_tree.h line 84 / line 202:
`parallel && (r - l > granularity)`; `r - l` is a `size_t`, so the `int`
granularity is converted to `size_t` by the usual arithmetic conversions. -/
def doParallel (parallel : Bool) (granularity : Int) (l r : Nat) : Bool :=
  parallel && decide (sizeTOfInt granularity < r - l)

/-- segment_tree.h `build_recursive` (lines 77-98).  `arrF`/`len` stand for the
input vector `arr` (`arrF i` is `arr[i]`, `len` its size); `t` is the tree
array.  The test `r ≤ l` is the leaf test `l == r` of the source (every call
satisfies `l ≤ r`). -/
def build_recursive (arrF : Nat → Int) (len : Nat) (inf : Int) :
    Nat → (Nat → Int) → Nat → Nat → Nat → (Nat → Int)
  | 0, t, _, _, _ => t
  | fuel + 1, t, x, l, r =>
    if r ≤ l then
      Function.update t x (if l < len then arrF l else inf)
    else
      let mid := (l + r) / 2
      let t1 := build_recursive arrF len inf fuel t (lc x) l mid
      let t2 := build_recursive arrF len inf fuel t1 (rc x) (mid + 1) r
      Function.update t2 x (min (t2 (lc x)) (t2 (rc x)))

/-- Number of parallel spawn events performed by `build_recursive`
(segment_tree.h lines 84-95): the spawn decision depends only on the range,
not on the data. -/
def build_spawns (parallel : Bool) (granularity : Int) :
    Nat → Nat → Nat → Nat
  | 0, _, _ => 0
  | fuel + 1, l, r =>
    if r ≤ l then 0
    else
      let mid := (l + r) / 2
      (if doParallel parallel granularity l r then 1 else 0) +
        build_spawns parallel granularity fuel l mid +
        build_spawns parallel granularity fuel (mid + 1) r

/-- segment_tree.h `update_recursive` (lines 137-156). -/
def update_recursive (pos : Nat) (newVal : Int) :
    Nat → (Nat → Int) → Nat → Nat → Nat → (Nat → Int)
  | 0, t, _, _, _ => t
  | fuel + 1, t, x, l, r =>
    if r ≤ l then
      Function.update t x newVal
    else
      let mid := (l + r) / 2
      let t1 :=
        if pos ≤ mid then update_recursive pos newVal fuel t (lc x) l mid
        else update_recursive pos newVal fuel t (rc x) (mid + 1) r
      Function.update t1 x (min (t1 (lc x)) (t1 (rc x)))

/-- The downward walk of segment_tree.h `find_min_index` (lines 464-490),
expressed as a recursion on the loop state (node index and range). -/
def find_min_loop (t : Nat → Int) : Nat → Nat → Nat → Nat → Nat
  | 0, _, l, _ => l
  | fuel + 1, x, l, r =>
    if l < r then
      let mid := (l + r) / 2
      if t (lc x) ≤ t (rc x) then find_min_loop t fuel (lc x) l mid
      else find_min_loop t fuel (rc x) (mid + 1) r
    else l

/-- segment_tree.h `find_min_index`: the walk starts at the root over
`[0, n-1]`. -/
def find_min_index (t : Nat → Int) (n : Nat) : Nat :=
  find_min_loop t n 0 0 (n - 1)

/-- segment_tree.h `read` (lines 569-577): the head of row i, or
numeric_limits max when the cursor is past the end of the arrow list. -/
def readA (arrows : Nat → List Int) (now : Nat → Nat) (i : Nat) : Int :=
  if (arrows i).length ≤ now i then intMax else (arrows i).getD (now i) 0

/-- The linear search of segment_tree.h lines 183-186: advance the cursor past
every element that is at most pre. -/
def linear_advance (ys : List Int) (pre : Int) : Nat → Nat → Nat
  | 0, k => k
  | fuel + 1, k =>
    if k < ys.length ∧ ys.getD k 0 ≤ pre then linear_advance ys pre fuel (k + 1)
    else k

/-- The binary search branch of segment_tree.h line 189:
std upper_bound over the sorted tail starting at the cursor. -/
def upper_bound_from (ys : List Int) (pre : Int) (k : Nat) : Nat :=
  k + ((ys.drop k).takeWhile (fun v => decide (v ≤ pre))).length

/-- The hybrid search at a cascade leaf (segment_tree.h lines 181-190); the
fuel of the linear branch is the list length plus one, which dominates the
number of loop iterations. -/
def leaf_advance (ys : List Int) (pre : Int) (k : Nat) : Nat :=
  if ys.length ≤ k + 8 ∨ pre < ys.getD (k + 8) 0 then
    linear_advance ys pre (ys.length + 1) k
  else upper_bound_from ys pre k

/-- Mutable state of the prefix-min cascade: the tree array, the cursor
array, and a count of the parallel spawn events that occurred. -/
structure PMState where
  t : Nat → Int
  now : Nat → Nat
  spawns : Nat

/-- segment_tree.h `prefix_min_recursive` (lines 170-233).  The two parallel
recursions touch disjoint leaves and disjoint tree nodes, so the sequential
elision (left, then right with the captured old left minimum as threshold) is
the semantics; the spawn decisions are counted in `spawns`. -/
def prefix_min_recursive (arrows : Nat → List Int) (inf : Int)
    (parallel : Bool) (granularity : Int) :
    Nat → PMState → Nat → Nat → Nat → Int → PMState
  | 0, s, _, _, _, _ => s
  | fuel + 1, s, x, l, r, pre =>
    if pre < s.t x then s
    else if r ≤ l then
      let ys := arrows l
      let now1 := Function.update s.now l (leaf_advance ys pre (s.now l))
      { t := Function.update s.t x (readA arrows now1 l), now := now1,
        spawns := s.spawns }
    else
      let mid := (l + r) / 2
      if s.t x = s.t (rc x) then
        if s.t (lc x) ≤ pre ∧ s.t (lc x) < inf then
          let doPar := doParallel parallel granularity l r
          let lcVal := s.t (lc x)
          let s1 := prefix_min_recursive arrows inf parallel granularity fuel s
            (lc x) l mid pre
          let s2 := prefix_min_recursive arrows inf parallel granularity fuel
            s1 (rc x) (mid + 1) r lcVal
          { t := Function.update s2.t x (min (s2.t (lc x)) (s2.t (rc x))),
            now := s2.now,
            spawns := s2.spawns + (if doPar then 1 else 0) }
        else
          let s2 := prefix_min_recursive arrows inf parallel granularity fuel
            s (rc x) (mid + 1) r pre
          { t := Function.update s2.t x (min (s2.t (lc x)) (s2.t (rc x))),
            now := s2.now, spawns := s2.spawns }
      else
        let s2 := prefix_min_recursive arrows inf parallel granularity fuel s
          (lc x) l mid pre
        { t := Function.update s2.t x (min (s2.t (lc x)) (s2.t (rc x))),
          now := s2.now, spawns := s2.spawns }

/-! ## LIS driver (lis.h, class LIS) -/

/-- Mutable state of LIS::compute (lis.h lines 29-38): the dp array, the
finalized flags, the segment tree and the running maximum. -/
structure LISState where
  dp : Nat → Int
  finalized : Nat → Bool
  t : Nat → Int
  maxResult : Int

/-- One round of the cordon loop of LIS::compute (lis.h lines 40-64):
find the cordon, relax in parallel every later unfinalized state that the
cordon improves (the parallel for is order independent: dp_cordon and
data_cordon are captured before the loop and every iteration writes a distinct
cell), finalize the cordon, and remove it from the tree. -/
def lis_round (data : Nat → Int) (n : Nat) (inf : Int) (s : LISState) :
    LISState :=
  let cordonIdx := find_min_index s.t n
  let dpCordon := s.dp cordonIdx
  let dataCordon := data cordonIdx
  let dp1 : Nat → Int := fun i =>
    if cordonIdx < i ∧ i < n ∧ s.finalized i = false ∧ dataCordon < data i
    then max (s.dp i) (dpCordon + 1) else s.dp i
  { dp := dp1,
    finalized := Function.update s.finalized cordonIdx true,
    t := update_recursive cordonIdx inf n s.t 0 0 (n - 1),
    maxResult := max s.maxResult (dp1 cordonIdx) }

/-- The while loop of LIS::compute.  numFinalized is incremented once per
round, so the loop runs exactly n rounds; the early break on
cordonIdx == -1 never fires because find_min_index returns a size_t below n.
Returns the final maxResult together with the number of rounds executed. -/
def lis_loop (data : Nat → Int) (n : Nat) (inf : Int) :
    Nat → LISState → Nat → Nat → Int × Nat
  | 0, s, _, rounds => (s.maxResult, rounds)
  | fuel + 1, s, numFinalized, rounds =>
    if numFinalized < n then
      lis_loop data n inf fuel (lis_round data n inf s) (numFinalized + 1)
        (rounds + 1)
    else (s.maxResult, rounds)

/-- LIS::compute (lis.h lines 25-67) with its round counter exposed.
The tree is the segment tree built over the data with the given sentinel
inf value (tree array initialized to inf by resize, then built); the loop
fuel n dominates the n iterations of the while loop. -/
def lis_compute_rounds (data : List Int) (parallel : Bool)
    (granularity : Int) (inf : Int) : Int × Nat :=
  let n := data.length
  if n = 0 then (0, 0)
  else
    let f : Nat → Int := fun i => data.getD i 0
    let t0 := build_recursive f n inf n (fun _ => inf) 0 0 (n - 1)
    lis_loop f n inf n
      { dp := fun _ => 1, finalized := fun _ => false, t := t0,
        maxResult := 0 } 0 0

/-- LIS::compute: the returned LIS length. -/
def lis_compute (data : List Int) (parallel : Bool) (granularity : Int)
    (inf : Int) : Int :=
  (lis_compute_rounds data parallel granularity inf).1

/-- The inner j loop of the reference solver refSol (tests/test_lis.cpp
lines 18-29): cur is the running value of dp at index i. -/
def lis_ref_inner (a : Nat → Int) (dp : Nat → Int) (i : Nat) :
    Nat → Nat → Int → Int
  | 0, _, cur => cur
  | fuel + 1, j, cur =>
    if j < i then
      lis_ref_inner a dp i fuel (j + 1)
        (if a j < a i then max cur (dp j + 1) else cur)
    else cur

/-- The outer i loop of refSol. -/
def lis_ref_outer (a : Nat → Int) (n : Nat) :
    Nat → Nat → (Nat → Int) → Int → Int
  | 0, _, _, result => result
  | fuel + 1, i, dp, result =>
    if i < n then
      let dpi := lis_ref_inner a dp i i 0 (dp i)
      lis_ref_outer a n fuel (i + 1) (Function.update dp i dpi)
        (if result < dpi then dpi else result)
    else result

/-- The naive O(n^2) reference LIS solver refSol of tests/test_lis.cpp. -/
def lis_naive (nums : List Int) : Int :=
  if nums.length ≤ 1 then (nums.length : Int)
  else lis_ref_outer (fun i => nums.getD i 0) nums.length nums.length 1
    (fun _ => 1) 0

/-! ## LCS driver (lcs.h, class LCS) -/

/-- The arrows construction of LCS::compute (lcs.h lines 200-215): row i
lists, in increasing order, the columns j with data2[j] == data1[i].  The
hash map of the source is keyed by value, so the per-row column order is the
insertion order, i.e. increasing j. -/
def arrowsOf (a b : List Int) : Nat → List Int :=
  fun i => ((List.range b.length).filter
    (fun j => b.getD j 0 = a.getD i 0)).map (fun (j : Nat) => (j : Int))

/-- The round loop of LCS::compute_arrows (lcs.h lines 95-99): while the
global minimum (the tree root) is below numeric_limits int max, count a round
and run one prefix-min cascade (called with pre = the tree infinity).  The
fuel dominates the number of rounds. -/
def lcs_loop (arrows : Nat → List Int) (inf : Int) (parallel : Bool)
    (granularity : Int) (n : Nat) :
    Nat → PMState → Nat → Nat × PMState
  | 0, s, round => (round, s)
  | fuel + 1, s, round =>
    if s.t 0 < intMax then
      lcs_loop arrows inf parallel granularity n fuel
        (prefix_min_recursive arrows inf parallel granularity n s 0 0 (n - 1)
          inf) (round + 1)
    else (round, s)

/-- LCS::compute_arrows (lcs.h lines 83-104) on an arrows family with n rows:
build the prefix-mode segment tree whose leaf i key is the head of row i, then
loop cascades until the global minimum is infinite; the answer is the round
count.  loopFuel must dominate the round count (the driver passes
n * m + 1). -/
def lcs_compute_arrows (arrows : Nat → List Int) (n loopFuel : Nat)
    (parallel : Bool) (granularity : Int) : Nat :=
  let now0 : Nat → Nat := fun _ => 0
  let t0 := build_recursive (fun i => readA arrows now0 i) n intMax n
    (fun _ => intMax) 0 0 (n - 1)
  (lcs_loop arrows intMax parallel granularity n loopFuel
    { t := t0, now := now0, spawns := 0 } 0).1

/-- LCS::compute (lcs.h lines 195-222): build the arrows from the two input
sequences and run the cascade round loop (the default arch CILK tree has the
same sequential semantics as segment_tree.h). -/
def lcs_compute (a b : List Int) (parallel : Bool) (granularity : Int) :
    Nat :=
  let n := a.length
  let m := b.length
  if n = 0 ∨ m = 0 then 0
  else lcs_compute_arrows (arrowsOf a b) n (n * m + 1) parallel granularity

/-- The inner j loop of lcs_dp_naive (utils.h lines 280-291), over the rolling
dp row: prev holds dp[j-1] of the previous row. -/
def lcs_naive_inner (s1 s2 : Nat → Int) (i : Nat) :
    Nat → Nat → (Nat → Nat) → Nat → (Nat → Nat)
  | 0, _, dp, _ => dp
  | fuel + 1, j, dp, prev =>
    let temp := dp j
    let dp1 := Function.update dp j
      (if s1 (i - 1) = s2 (j - 1) then prev + 1 else max (dp j) (dp (j - 1)))
    lcs_naive_inner s1 s2 i fuel (j + 1) dp1 temp

/-- The outer i loop of lcs_dp_naive. -/
def lcs_naive_outer (s1 s2 : Nat → Int) (nn : Nat) :
    Nat → Nat → (Nat → Nat) → (Nat → Nat)
  | 0, _, dp => dp
  | fuel + 1, i, dp =>
    lcs_naive_outer s1 s2 nn fuel (i + 1)
      (lcs_naive_inner s1 s2 i nn 1 dp 0)

/-- utils.h lcs_dp_naive without the swap: seq1 indexed by i (rows), seq2 by
j (the rolling dp row of length n+1). -/
def lcs_dp_go (seq1 seq2 : List Int) : Nat :=
  let m := seq1.length
  let n := seq2.length
  let dp := lcs_naive_outer (fun i => seq1.getD i 0) (fun j => seq2.getD j 0)
    n m 1 (fun _ => 0)
  dp n

/-- utils.h `lcs_dp_naive` (lines 269-294): if m < n the arguments are
swapped (the recursive call immediately passes the swap test). -/
def lcs_dp_naive (seq1 seq2 : List Int) : Nat :=
  if seq1.length < seq2.length then lcs_dp_go seq2 seq1
  else lcs_dp_go seq1 seq2

/-! ## Convex GLWS (glws.h, utils.h) -/

/-- utils.h lines 21-25: run-length-compressed best-decision triple; states
in [l, r] currently have best predecessor j. -/
structure Interval where
  l : Nat
  r : Nat
  j : Nat
deriving DecidableEq, Repr

/-- utils.h `findBest` (lines 27-32): the j field of the first interval of B
containing i, or 0 as fallback. -/
def findBest (i : Nat) (B : List Interval) : Nat :=
  match B.find? (fun iv => decide (iv.l ≤ i ∧ i ≤ iv.r)) with
  | some iv => iv.j
  | none => 0

/-- The linear argmin scan of ConvexGLWS::findIntervals (glws.h lines
131-139 and 144-152): first j in [jl, jr] minimising D[j] + cost(j, i0),
ties kept at the smaller j. -/
def bestScan (D : Nat → Int) (cost : Nat → Nat → Int) (i0 : Nat) :
    Nat → Nat → Nat → Nat → Int → Nat
  | 0, _, _, best, _ => best
  | fuel + 1, j, jr, best, val =>
    if j ≤ jr then
      let cand := D j + cost j i0
      if cand < val then bestScan D cost i0 fuel (j + 1) jr j cand
      else bestScan D cost i0 fuel (j + 1) jr best val
    else best

/-- ConvexGLWS::findIntervals (glws.h lines 125-159): SMAWK-style midpoint
recursion producing the decision intervals of [il, ir] with candidate
predecessors [jl, jr].  All reachable calls have il ≥ 1 so the Nat
subtraction im - 1 agrees with the int arithmetic of the source. -/
def findIntervals (D : Nat → Int) (cost : Nat → Nat → Int) :
    Nat → Nat → Nat → Nat → Nat → List Interval
  | 0, _, _, _, _ => []
  | fuel + 1, jl, jr, il, ir =>
    if ir < il then []
    else if il = ir then
      let best := bestScan D cost il (jr + 1) (jl + 1) jr jl
        (D jl + cost jl il)
      [⟨il, ir, best⟩]
    else
      let im := (il + ir) / 2
      let best := bestScan D cost im (jr + 1) (jl + 1) jr jl
        (D jl + cost jl im)
      findIntervals D cost fuel jl best il (im - 1) ++
        ⟨im, im, best⟩ ::
          findIntervals D cost fuel best jr (im + 1) ir

/-- The inner i scan of ConvexGLWS::findCordon (glws.h lines 73-86): the
first i in [i, n] where relaxing from j (with tentative value Dj) beats the
current best of i, or n + 1 if none. -/
def sjScan (D : Nat → Int) (cost : Nat → Nat → Int) (B : List Interval)
    (n j : Nat) (Dj : Int) : Nat → Nat → Nat
  | 0, _ => n + 1
  | fuel + 1, i =>
    if i ≤ n then
      let cb := findBest i B
      if Dj + cost j i < D cb + cost cb i then i
      else sjScan D cost B n j Dj fuel (i + 1)
    else n + 1

/-- The per-j body of findCordon (glws.h lines 64-90): s_j of the source. -/
def sjFor (D : Nat → Int) (cost : Nat → Nat → Int) (B : List Interval)
    (n j : Nat) : Nat :=
  let bestj := findBest j B
  let Ej := D bestj + cost bestj j
  if Ej < D j then sjScan D cost B n j Ej (n + 1) (j + 1)
  else n + 1

/-- Minimum of s_j over the window [l, r] folded into the running cordon
(glws.h line 91). -/
def windowMin (D : Nat → Int) (cost : Nat → Nat → Int) (B : List Interval)
    (n : Nat) (l r cordon : Nat) : Nat :=
  (List.range (r + 1 - l)).foldl
    (fun acc k => min acc (sjFor D cost B n (l + k))) cordon

/-- The doubling loop of ConvexGLWS::findCordon (glws.h lines 58-93):
iterate t = 1, 2, ... while now + 2^t ≤ n, scanning the window
[now + 2^(t-1), min(n, now + 2^t - 1)] and stopping early once
cordon ≤ r + 1. -/
def findCordonLoop (D : Nat → Int) (cost : Nat → Nat → Int)
    (B : List Interval) (n now : Nat) : Nat → Nat → Nat → Nat
  | 0, _, cordon => cordon
  | fuel + 1, t, cordon =>
    if now + 2 ^ t ≤ n then
      let l := now + 2 ^ (t - 1)
      let r := min n (now + 2 ^ t - 1)
      let cordon1 := windowMin D cost B n l r cordon
      if cordon1 ≤ r + 1 then cordon1
      else findCordonLoop D cost B n now fuel (t + 1) cordon1
    else cordon

/-- ConvexGLWS::findCordon (glws.h lines 54-95). -/
def findCordon (D : Nat → Int) (cost : Nat → Nat → Int) (B : List Interval)
    (n now : Nat) : Nat :=
  findCordonLoop D cost B n now (n + 2) 1 (n + 1)

/-- The finalisation loop of ConvexGLWS::compute (glws.h lines 33-37),
in its sequential elision (i ascending): D[i] = D[b] + cost(b, i) with
b = findBest(i, B).  In every reachable state the predecessors stored in B
are at most now, so the reads never alias the writes and the parallel
execution agrees with this elision. -/
def finalizeLoop (cost : Nat → Nat → Int) (B : List Interval)
    (cordon : Nat) : Nat → Nat → (Nat → Int) → (Nat → Int)
  | 0, _, D => D
  | fuel + 1, i, D =>
    if i < cordon then
      let b := findBest i B
      finalizeLoop cost B cordon fuel (i + 1)
        (Function.update D i (D b + cost b i))
    else D

/-- The single compaction step of ConvexGLWS::updateBest (glws.h lines
106-116), with the output kept reversed (head = compact.back()). -/
def compactRev (acc : List Interval) (iv : Interval) : List Interval :=
  match acc with
  | [] => [iv]
  | back :: rest =>
    if iv.j = back.j ∧ iv.l = back.r + 1 then ⟨back.l, iv.r, back.j⟩ :: rest
    else iv :: back :: rest

/-- The compaction pass of updateBest. -/
def compactPass (l : List Interval) : List Interval :=
  (l.foldl compactRev []).reverse

/-- ConvexGLWS::updateBest (glws.h lines 97-123): keep the old intervals
ending before the cordon, append the SMAWK intervals for [cordon, n] with
candidates [now+1, cordon-1], and compact. -/
def updateBest (now cordon n : Nat) (D : Nat → Int)
    (cost : Nat → Nat → Int) (B : List Interval) : List Interval :=
  let Bnew := findIntervals D cost (n + 2) (now + 1) (cordon - 1) cordon n
  let merged := B.filter (fun iv => decide (iv.r < cordon)) ++ Bnew
  compactPass merged

/-- State of the round loop of ConvexGLWS::compute. -/
structure GState where
  D : Nat → Int
  B : List Interval
  now : Nat

/-- One round of ConvexGLWS::compute (glws.h lines 31-48): find the cordon,
finalize the states below it, recompute the decision intervals, and advance
now to cordon - 1. -/
def glws_step (cost : Nat → Nat → Int) (n : Nat) (s : GState) : GState :=
  let cordon := findCordon s.D cost s.B n s.now
  let D1 := finalizeLoop cost s.B cordon (n + 1) (s.now + 1) s.D
  let B1 := updateBest s.now cordon n D1 cost s.B
  { D := D1, B := B1, now := cordon - 1 }

/-- The while loop of ConvexGLWS::compute; each round strictly increases
now, so fuel n + 1 dominates the iteration count. -/
def glws_loop (cost : Nat → Nat → Int) (n : Nat) :
    Nat → GState → Nat → GState × Nat
  | 0, s, rounds => (s, rounds)
  | fuel + 1, s, rounds =>
    if s.now < n then
      glws_loop cost n fuel (glws_step cost n s) (rounds + 1)
    else (s, rounds)

/-- ConvexGLWS::compute (glws.h lines 14-51) with the round count exposed.
The caller supplies the cost function already applied to the position array
pos = 0 :: data built at lines 16-19; T() (the value returned on empty
input) is 0 and numeric_limits T max is the INF parameter. -/
def glws_compute_rounds (data : List Int) (cost : Nat → Nat → Int)
    (INF : Int) : Int × Nat :=
  let n := data.length
  if n = 0 then (0, 0)
  else
    let D0 : Nat → Int := fun i => if i = 0 then 0 else INF
    let s0 : GState := { D := D0, B := [⟨1, n, 0⟩], now := 0 }
    let res := glws_loop cost n (n + 1) s0 0
    (res.1.D n, res.2)

/-- ConvexGLWS::compute: the returned optimal cost D[n]. -/
def glws_compute (data : List Int) (cost : Nat → Nat → Int) (INF : Int) :
    Int :=
  (glws_compute_rounds data cost INF).1

/-- The reference dynamic program of the specification (and of refSol in
tests/test_glws.cpp): D[0] = 0 and D[i] = min over j < i of D[j] +
cost(j, i), computed as the list [D 0, ..., D i]. -/
def refDList (cost : Nat → Nat → Int) : Nat → List Int
  | 0 => [0]
  | i + 1 =>
    let prev := refDList cost i
    prev ++ [(List.range (i + 1)).foldl
      (fun acc j => min acc (prev.getD j 0 + cost j (i + 1)))
      (prev.getD 0 0 + cost 0 (i + 1))]

/-- The reference DP value D[i]. -/
def refD (cost : Nat → Nat → Int) (i : Nat) : Int :=
  (refDList cost i).getD i 0

/-! ## Specification-side definitions used by the theorems -/

/-- The node set of the recursion over segment [l, r] rooted at node x
(fuel-bounded like the operations): y is x itself or lies in the recursion
subtree of one of the children. -/
def inTreeB : Nat → Nat → Nat → Nat → Nat → Bool
  | 0, _, _, _, _ => false
  | fuel + 1, x, l, r, y =>
    y == x ||
      (!(r ≤ l) &&
        (inTreeB fuel (lc x) l ((l + r) / 2) y ||
          inTreeB fuel (rc x) ((l + r) / 2 + 1) r y))

/-- The segment tree min invariant (spec section 3: every internal node
stores the minimum of its two children, every leaf stores its key v):
checked over the recursion structure of segment [l, r] at node x.  Fuel 0
yields false, so the invariant also certifies that the fuel dominates the
recursion depth. -/
def segInvB (t v : Nat → Int) : Nat → Nat → Nat → Nat → Bool
  | 0, _, _, _ => false
  | fuel + 1, x, l, r =>
    if r ≤ l then t x == v l
    else
      (t x == min (t (lc x)) (t (rc x))) &&
        segInvB t v fuel (lc x) l ((l + r) / 2) &&
        segInvB t v fuel (rc x) ((l + r) / 2 + 1) r

/-- Propositional form of the segment tree invariant. -/
def SegInv (t v : Nat → Int) (fuel x l r : Nat) : Prop :=
  segInvB t v fuel x l r = true

/-- The leaf key function of the LIS tree: data value if not finalized,
the sentinel inf once removed. -/
def vOf (a : Nat → Int) (inf : Int) (fin : Nat → Bool) : Nat → Int :=
  fun i => if fin i then inf else a i

/-- The textbook LIS dp recurrence: naiveDp a i = 1 + max over j < i with
a j < a i of naiveDp a j (1 when there is no such j). -/
def naiveDp (a : Nat → Int) : Nat → Int := fun i =>
  1 + (((List.range i).filter (fun j => decide (a j < a i))).attach.foldl
    (fun acc jh => max acc (naiveDp a jh.1)) 0)
termination_by i => i
decreasing_by
  rename_i jh
  have h2 := jh.2
  simp only [List.mem_filter, List.mem_range] at h2
  exact h2.1

/-- Best dp value over the currently finalized states below i that the LIS
relaxation can have contributed to state i. -/
def dpSpec (a : Nat → Int) (fin : Nat → Bool) (i : Nat) : Int :=
  1 + ((List.range i).filter
    (fun j => fin j && decide (a j < a i))).foldl
    (fun acc j => max acc (naiveDp a j)) 0

/-- Running maximum of the finalized dp values (the maxResult variable). -/
def maxSpec (a : Nat → Int) (fin : Nat → Bool) (n : Nat) : Int :=
  ((List.range n).filter (fun j => fin j)).foldl
    (fun acc j => max acc (naiveDp a j)) 0

/-- The maximum of the textbook dp values over all states: the LIS length
of a[0..n). -/
def lisMax (a : Nat → Int) (n : Nat) : Int :=
  (List.range n).foldl (fun acc j => max acc (naiveDp a j)) 0

/-- Length of the longest chain of matches (strictly increasing row below i
and strictly increasing column below c): the rank of a match (i, j) is
1 + chainMax i j, and chainMax n (column bound) is the LCS length. -/
def chainMax (arrows : Nat → List Int) : Nat → Int → Nat
  | 0, _ => 0
  | i + 1, c =>
    max (chainMax arrows i c)
      (((arrows i).filter (fun v => decide (v < c))).foldl
        (fun acc j => max acc (1 + chainMax arrows i j)) 0)

/-- Rank of a match (i, j): length of the longest strictly increasing chain
of matches ending at it. -/
def rank (arrows : Nat → List Int) (i : Nat) (j : Int) : Nat :=
  1 + chainMax arrows i j

/-- Number of elements of row i whose rank is at most k (the model value of
the cursor now[i] after k cascade rounds). -/
def cntRank (arrows : Nat → List Int) (i k : Nat) : Nat :=
  (arrows i).countP (fun j => decide (rank arrows i j ≤ k))

/-- The running prefix threshold of the cascade model: minimum of pre and
the heads of rows [l, i). -/
def thresh (arrows : Nat → List Int) (now : Nat → Nat) (pre : Int)
    (l i : Nat) : Int :=
  (List.range' l (i - l)).foldl (fun acc j => min acc (readA arrows now j)) pre

/-- Number of leading elements of row i that are at most tau (for sorted
rows, the number of elements at most tau). -/
def cntLE (arrows : Nat → List Int) (i : Nat) (tau : Int) : Nat :=
  ((arrows i).takeWhile (fun v => decide (v ≤ tau))).length

/-- One cascade round of the abstract model: each cursor jumps to the count
of elements at most the running prefix minimum of the old heads. -/
def modelRound (arrows : Nat → List Int) (now : Nat → Nat) : Nat → Nat :=
  fun i => max (now i) (cntLE arrows i (thresh arrows now intMax 0 i))

/-- The classic two-dimensional LCS dynamic program on prefixes:
Ldp a b i j is the LCS length of a[0..i) and b[0..j). -/
def Ldp (a b : Nat → Int) : Nat → Nat → Nat
  | 0, _ => 0
  | _ + 1, 0 => 0
  | i + 1, j + 1 =>
    if a i = b j then Ldp a b i j + 1
    else max (Ldp a b (i + 1) j) (Ldp a b i (j + 1))
termination_by i j => (i, j)

/-- Best extension value over the matches of row i with column below cc:
the inner maximum of the row-expansion of the LCS recurrence. -/
def LdpMatch (a b : Nat → Int) (i cc : Nat) : Nat :=
  ((List.range cc).filter (fun j => decide (b j = a i))).foldl
    (fun acc j => max acc (1 + Ldp a b i j)) 0

/-- The cost table of the Convex-GLWS failing input: a Monge (submodular)
cost on 0..3 with c(0,1)=50, c(0,2)=10, c(0,3)=100, c(1,2)=50, c(1,3)=50,
c(2,3)=1, and 1000 on the diagonal and all other pairs. -/
def cexCost : Nat → Nat → Int := fun j i =>
  if j = 0 ∧ i = 1 then 50
  else if j = 0 ∧ i = 2 then 10
  else if j = 0 ∧ i = 3 then 100
  else if j = 1 ∧ i = 2 then 50
  else if j = 1 ∧ i = 3 then 50
  else if j = 2 ∧ i = 3 then 1
  else 1000

/-! ## Claim theorems (easy group) and counterexamples -/

/-- C3: the Convex-GLWS solver does not equal the reference DP on every
Monge cost.  At the failing input data = [1,2,3] with the Monge cost table
cexCost, the solver returns 100 while the reference recurrence gives
D[3] = 11: the doubling loop of findCordon (glws.h line 58) exits as soon as
now + 2^t > n and never probes predecessor 2, which improves state 3
(spec section 4.4 describes probing that continues until the cordon break,
and tests/test_glws.cpp asserts equality with refSol). -/
theorem claim_C3 :
    (∀ a b c d : Fin 4, a ≤ b → b ≤ c → c ≤ d →
      cexCost a.1 c.1 + cexCost b.1 d.1 ≤ cexCost a.1 d.1 + cexCost b.1 c.1) ∧
    glws_compute [1, 2, 3] cexCost intMax = 100 ∧
    refD cexCost 3 = 11 ∧
    glws_compute [1, 2, 3] cexCost intMax ≠ refD cexCost 3 :=
  ⟨by decide, by decide, by decide, by decide⟩

/-- C4: on empty input each solver returns zero: the LIS solver returns 0 on
the empty sequence, the LCS solver returns 0 when either input sequence is
empty, and the Convex-GLWS solver returns 0 (the default value of T) on the
empty sequence. -/
theorem claim_C4 :
    (∀ parallel granularity inf, lis_compute [] parallel granularity inf = 0) ∧
    (∀ (b : List Int) parallel granularity,
      lcs_compute [] b parallel granularity = 0) ∧
    (∀ (a : List Int) parallel granularity,
      lcs_compute a [] parallel granularity = 0) ∧
    (∀ (cost : Nat → Nat → Int) INF, glws_compute [] cost INF = 0) := by
  refine ⟨fun _ _ _ => rfl, fun b _ _ => rfl, fun a p g => ?_, fun _ _ => rfl⟩
  simp [lcs_compute]

/-- C10: if no interval of B contains i then findBest returns the fallback
predecessor 0, and the relax / finalise value computed from it is
D[0] + cost(0, i). -/
theorem claim_C10 (i : Nat) (B : List Interval) (D : Nat → Int)
    (cost : Nat → Nat → Int) (h : ∀ iv ∈ B, ¬(iv.l ≤ i ∧ i ≤ iv.r)) :
    findBest i B = 0 ∧
      D (findBest i B) + cost (findBest i B) i = D 0 + cost 0 i := by
  have hfb : findBest i B = 0 := by
    unfold findBest
    have : B.find? (fun iv => decide (iv.l ≤ i ∧ i ≤ iv.r)) = none := by
      rw [List.find?_eq_none]
      intro iv hiv
      simpa using h iv hiv
    rw [this]
  exact ⟨hfb, by rw [hfb]⟩

/-- Witness for C10 at a concrete uncovered index. -/
theorem claim_C10_witness :
    (∀ iv ∈ ([⟨1, 3, 2⟩] : List Interval), ¬(iv.l ≤ 5 ∧ 5 ≤ iv.r)) ∧
    findBest 5 [⟨1, 3, 2⟩] = 0 :=
  ⟨by decide,
    (claim_C10 5 [⟨1, 3, 2⟩] (fun _ => 0) (fun _ _ => 0) (by decide)).1⟩

/-- C1 counterexample: the claim fails on inputs containing the sentinel
inf value (numeric_limits int max, the default).  On [5, intMax] the solver
returns 1 but the naive reference gives 2: after round one removes index 0,
the removed leaf ties with the real sentinel value at index 1, find_min_index
picks index 0 again, and index 1 (dp = 2) is never taken as the cordon. -/
theorem claim_C1_counterexample :
    lis_compute [5, intMax] false 0 intMax = 1 ∧
    lis_naive [5, intMax] = 2 :=
  ⟨by decide, by decide⟩

/-- C5 counterexample: for the LIS solver the round count does not equal the
answer: on [9,8,7,6,5] the while loop runs once per element (numFinalized is
incremented every round), i.e. 5 rounds, while the answer is 1. -/
theorem claim_C5_counterexample :
    (lis_compute_rounds [9, 8, 7, 6, 5] false 0 intMax).2 = 5 ∧
    lis_compute [9, 8, 7, 6, 5] false 0 intMax = 1 :=
  ⟨by decide, by decide⟩

/-- C6 counterexample: granularity 0 does not disable parallel spawning.
In the build over two leaves ([l, r] = [0, 1]) with parallel = true and
granularity = 0, the root spawns: r - l = 1 > (size_t)0. -/
theorem claim_C6_counterexample :
    build_spawns true 0 2 0 1 = 1 ∧ doParallel true 0 0 1 = true :=
  ⟨by decide, by decide⟩

/-! ## Generic fold and list lemmas -/

theorem foldl_max_init_le {α : Type} (g : α → Int) (l : List α) (acc : Int) :
    acc ≤ l.foldl (fun a j => max a (g j)) acc := by
  induction l generalizing acc with
  | nil => exact le_refl acc
  | cons x xs ih =>
    exact le_trans (le_max_left acc (g x)) (ih (max acc (g x)))

theorem foldl_max_le_of_mem {α : Type} (g : α → Int) (l : List α)
    (acc : Int) {j : α} (hj : j ∈ l) :
    g j ≤ l.foldl (fun a j => max a (g j)) acc := by
  induction l generalizing acc with
  | nil => cases hj
  | cons x xs ih =>
    rcases List.mem_cons.mp hj with h | h
    · subst h
      exact le_trans (le_max_right acc (g j)) (foldl_max_init_le g xs _)
    · exact ih _ h

theorem foldl_max_le {α : Type} (g : α → Int) (l : List α) (acc b : Int)
    (hacc : acc ≤ b) (hl : ∀ j ∈ l, g j ≤ b) :
    l.foldl (fun a j => max a (g j)) acc ≤ b := by
  induction l generalizing acc with
  | nil => exact hacc
  | cons x xs ih =>
    exact ih (max acc (g x))
      (max_le hacc (hl x (List.mem_cons_self x xs)))
      (fun j hj => hl j (List.mem_cons_of_mem x hj))

theorem foldl_max_attained {α : Type} (g : α → Int) (l : List α)
    (acc : Int) :
    l.foldl (fun a j => max a (g j)) acc = acc ∨
      ∃ j ∈ l, l.foldl (fun a j => max a (g j)) acc = g j := by
  induction l generalizing acc with
  | nil => exact Or.inl rfl
  | cons x xs ih =>
    rcases ih (max acc (g x)) with h | ⟨j, hj, hjeq⟩
    · simp only [List.foldl_cons]
      rcases max_cases acc (g x) with ⟨he, _⟩ | ⟨he, _⟩
      · rw [h, he]; exact Or.inl rfl
      · rw [h, he]; exact Or.inr ⟨x, List.mem_cons_self x xs, rfl⟩
    · exact Or.inr ⟨j, List.mem_cons_of_mem x hj, hjeq⟩

theorem foldl_min_le_init {α : Type} (g : α → Int) (l : List α) (acc : Int) :
    l.foldl (fun a j => min a (g j)) acc ≤ acc := by
  induction l generalizing acc with
  | nil => exact le_refl acc
  | cons x xs ih =>
    exact le_trans (ih (min acc (g x))) (min_le_left acc (g x))

theorem foldl_min_le_of_mem {α : Type} (g : α → Int) (l : List α)
    (acc : Int) {j : α} (hj : j ∈ l) :
    l.foldl (fun a j => min a (g j)) acc ≤ g j := by
  induction l generalizing acc with
  | nil => cases hj
  | cons x xs ih =>
    rcases List.mem_cons.mp hj with h | h
    · subst h
      exact le_trans (foldl_min_le_init g xs _) (min_le_right acc (g j))
    · exact ih _ h

theorem le_foldl_min {α : Type} (g : α → Int) (l : List α) (acc b : Int)
    (hacc : b ≤ acc) (hl : ∀ j ∈ l, b ≤ g j) :
    b ≤ l.foldl (fun a j => min a (g j)) acc := by
  induction l generalizing acc with
  | nil => exact hacc
  | cons x xs ih =>
    exact ih (min acc (g x))
      (le_min hacc (hl x (List.mem_cons_self x xs)))
      (fun j hj => hl j (List.mem_cons_of_mem x hj))

theorem foldl_min_attained {α : Type} (g : α → Int) (l : List α)
    (acc : Int) :
    l.foldl (fun a j => min a (g j)) acc = acc ∨
      ∃ j ∈ l, l.foldl (fun a j => min a (g j)) acc = g j := by
  induction l generalizing acc with
  | nil => exact Or.inl rfl
  | cons x xs ih =>
    rcases ih (min acc (g x)) with h | ⟨j, hj, hjeq⟩
    · simp only [List.foldl_cons]
      rcases min_cases acc (g x) with ⟨he, _⟩ | ⟨he, _⟩
      · rw [h, he]; exact Or.inl rfl
      · rw [h, he]; exact Or.inr ⟨x, List.mem_cons_self x xs, rfl⟩
    · exact Or.inr ⟨j, List.mem_cons_of_mem x hj, hjeq⟩

theorem foldl_max_init_merge {α : Type} (g : α → Int) (l : List α)
    (a b : Int) :
    l.foldl (fun x j => max x (g j)) (max a b) =
      max (l.foldl (fun x j => max x (g j)) a) b := by
  induction l generalizing a with
  | nil => rfl
  | cons x xs ih =>
    simp only [List.foldl_cons]
    rw [max_assoc a b (g x), max_comm b (g x), ← max_assoc a (g x) b, ih]

theorem foldl_max_filter_insert {α : Type} [DecidableEq α]
    (g : α → Int) (p : α → Bool) (c : α) (l : List α) (acc : Int)
    (hc : c ∈ l) (hnd : l.Nodup) :
    (l.filter (fun j => p j || (j == c))).foldl
        (fun a j => max a (g j)) acc =
      max ((l.filter p).foldl (fun a j => max a (g j)) acc) (g c) := by
  induction l generalizing acc with
  | nil => cases hc
  | cons x xs ih =>
    have hnd2 := List.nodup_cons.mp hnd
    by_cases hxc : x = c
    · subst hxc
      have hfc : xs.filter (fun j => p j || (j == x)) = xs.filter p := by
        apply List.filter_congr
        intro j hj
        have hne : (j == x) = false :=
          beq_eq_false_iff_ne.mpr (fun hh => hnd2.1 (hh ▸ hj))
        rw [hne, Bool.or_false]
      have hL : (x :: xs).filter (fun j => p j || (j == x)) =
          x :: xs.filter p := by
        rw [List.filter_cons]
        simp [hfc]
      by_cases hp : p x
      · have hR : (x :: xs).filter p = x :: xs.filter p := by
          rw [List.filter_cons, if_pos hp]
        rw [hL, hR]
        simp only [List.foldl_cons]
        exact (max_eq_left (le_trans (le_max_right acc (g x))
          (foldl_max_init_le g _ _))).symm
      · have hR : (x :: xs).filter p = xs.filter p := by
          rw [List.filter_cons, if_neg (by simp [hp])]
        rw [hL, hR]
        simp only [List.foldl_cons]
        exact foldl_max_init_merge g _ acc (g x)
    · have hcxs : c ∈ xs := by
        rcases List.mem_cons.mp hc with h | h
        · exact absurd h.symm hxc
        · exact h
      have hbeq : (x == c) = false := beq_eq_false_iff_ne.mpr hxc
      by_cases hp : p x
      · have hL : (x :: xs).filter (fun j => p j || (j == c)) =
            x :: xs.filter (fun j => p j || (j == c)) := by
          rw [List.filter_cons, if_pos (by simp [hp])]
        have hR : (x :: xs).filter p = x :: xs.filter p := by
          rw [List.filter_cons, if_pos hp]
        rw [hL, hR]
        simp only [List.foldl_cons]
        exact ih (max acc (g x)) hcxs hnd2.2
      · have hL : (x :: xs).filter (fun j => p j || (j == c)) =
            xs.filter (fun j => p j || (j == c)) := by
          rw [List.filter_cons, if_neg (by simp [hp, hbeq])]
        have hR : (x :: xs).filter p = xs.filter p := by
          rw [List.filter_cons, if_neg (by simp [hp])]
        rw [hL, hR]
        exact ih acc hcxs hnd2.2

theorem getD_eq_elem (ys : List Int) (k : Nat) (h : k < ys.length) :
    ys.getD k 0 = ys[k] := by
  rw [List.getD_eq_getElem?_getD, List.getElem?_eq_getElem h]
  rfl

theorem getD_mem_of_lt (ys : List Int) (k : Nat) (h : k < ys.length) :
    ys.getD k 0 ∈ ys := by
  rw [getD_eq_elem ys k h]
  exact List.getElem_mem h

theorem takeWhile_length_le (p : Int → Bool) (ys : List Int) :
    (ys.takeWhile p).length ≤ ys.length := by
  induction ys with
  | nil => exact le_refl 0
  | cons y ys ih =>
    rw [List.takeWhile_cons]
    by_cases hp : p y
    · simp only [hp, if_true, List.length_cons]
      omega
    · simp [hp]

theorem takeWhile_length_le_of_fail (p : Int → Bool) (ys : List Int)
    (k : Nat) (hk : k < ys.length) (hfail : p (ys.getD k 0) = false) :
    (ys.takeWhile p).length ≤ k := by
  induction ys generalizing k with
  | nil => simp at hk
  | cons y ys ih =>
    match k with
    | 0 =>
      simp only [List.getD_cons_zero] at hfail
      simp [List.takeWhile_cons, hfail]
    | k + 1 =>
      rw [List.takeWhile_cons]
      by_cases hp : p y
      · simp only [hp, if_true, List.length_cons]
        have := ih k (by simpa using hk) (by simpa using hfail)
        omega
      · simp [hp]

theorem succ_le_takeWhile_length (tau : Int) (ys : List Int)
    (hs : ys.Sorted (· < ·)) (k : Nat) (hk : k < ys.length)
    (hle : ys.getD k 0 ≤ tau) :
    k + 1 ≤ (ys.takeWhile (fun v => decide (v ≤ tau))).length := by
  induction ys generalizing k with
  | nil => simp at hk
  | cons y ys ih =>
    have hs2 := List.sorted_cons.mp hs
    match k with
    | 0 =>
      simp only [List.getD_cons_zero] at hle
      simp [List.takeWhile_cons, hle]
    | k + 1 =>
      have hk2 : k < ys.length := by simpa using hk
      have hle2 : ys.getD k 0 ≤ tau := by simpa using hle
      have hmem : ys.getD k 0 ∈ ys := getD_mem_of_lt ys k hk2
      have hy : y < ys.getD k 0 := hs2.1 _ hmem
      have hyt : y ≤ tau := le_of_lt (lt_of_lt_of_le hy hle2)
      rw [List.takeWhile_cons]
      simp only [hyt, decide_eq_true_eq, if_pos, List.length_cons]
      have := ih hs2.2 k hk2 hle2
      omega

theorem linear_advance_eq (tau : Int) (ys : List Int)
    (hs : ys.Sorted (· < ·)) :
    ∀ fuel k, ys.length + 1 ≤ fuel + k →
      linear_advance ys tau fuel k =
        max k (ys.takeWhile (fun v => decide (v ≤ tau))).length := by
  intro fuel
  induction fuel with
  | zero =>
    intro k hk
    have h1 : (ys.takeWhile (fun v => decide (v ≤ tau))).length ≤ ys.length :=
      takeWhile_length_le _ _
    simp only [linear_advance]
    omega
  | succ fuel ih =>
    intro k hk
    rw [linear_advance]
    by_cases hg : k < ys.length ∧ ys.getD k 0 ≤ tau
    · rw [if_pos hg]
      rw [ih (k + 1) (by omega)]
      have h2 := succ_le_takeWhile_length tau ys hs k hg.1 hg.2
      omega
    · rw [if_neg hg]
      push_neg at hg
      by_cases hkl : k < ys.length
      · have hfail : (fun v => decide (v ≤ tau)) (ys.getD k 0) = false := by
          simp only [decide_eq_false_iff_not]
          exact not_le.mpr (hg hkl)
        have := takeWhile_length_le_of_fail (fun v => decide (v ≤ tau)) ys
          k hkl hfail
        omega
      · have h1 : (ys.takeWhile (fun v => decide (v ≤ tau))).length ≤
            ys.length := takeWhile_length_le _ _
        omega

theorem drop_takeWhile_length (p : Int → Bool) (ys : List Int) (k : Nat)
    (hk : k ≤ (ys.takeWhile p).length) :
    ((ys.drop k).takeWhile p).length = (ys.takeWhile p).length - k := by
  induction ys generalizing k with
  | nil => simp
  | cons y ys ih =>
    match k with
    | 0 => simp
    | k + 1 =>
      rw [List.takeWhile_cons] at hk ⊢
      by_cases hp : p y
      · simp only [hp, if_true, List.length_cons] at hk ⊢
        rw [List.drop_succ_cons]
        rw [ih k (by omega)]
        omega
      · simp [hp] at hk

theorem upper_bound_from_eq (tau : Int) (ys : List Int) (k : Nat)
    (hk : k ≤ (ys.takeWhile (fun v => decide (v ≤ tau))).length) :
    upper_bound_from ys tau k =
      max k (ys.takeWhile (fun v => decide (v ≤ tau))).length := by
  unfold upper_bound_from
  rw [drop_takeWhile_length _ ys k hk]
  omega

theorem leaf_advance_eq (tau : Int) (ys : List Int)
    (hs : ys.Sorted (· < ·)) (k : Nat) :
    leaf_advance ys tau k =
      max k (ys.takeWhile (fun v => decide (v ≤ tau))).length := by
  unfold leaf_advance
  by_cases hg : ys.length ≤ k + 8 ∨ tau < ys.getD (k + 8) 0
  · rw [if_pos hg]
    exact linear_advance_eq tau ys hs (ys.length + 1) k (by omega)
  · rw [if_neg hg]
    push_neg at hg
    have h2 := succ_le_takeWhile_length tau ys hs (k + 8) hg.1 hg.2
    exact upper_bound_from_eq tau ys k (by omega)

theorem cntLE_le_of_head_gt (arrows : Nat → List Int) (now : Nat → Nat)
    (i : Nat) (tau : Int) (h : tau < readA arrows now i) :
    cntLE arrows i tau ≤ now i := by
  unfold readA at h
  unfold cntLE
  by_cases hl : (arrows i).length ≤ now i
  · exact le_trans (takeWhile_length_le _ _) hl
  · rw [if_neg hl] at h
    exact takeWhile_length_le_of_fail _ _ (now i) (by omega)
      (by simp only [decide_eq_false_iff_not]; exact not_le.mpr h)

/-! ## Subtree node sets and the tree invariant -/

theorem inTree_dyadic :
    ∀ fuel x l r y, inTreeB fuel x l r y = true →
      ∃ k, (x + 1) * 2 ^ k ≤ y + 1 ∧ y + 1 < (x + 2) * 2 ^ k := by
  intro fuel
  induction fuel with
  | zero => intro x l r y h; simp [inTreeB] at h
  | succ fuel ih =>
    intro x l r y h
    simp only [inTreeB, Bool.or_eq_true, Bool.and_eq_true, beq_iff_eq] at h
    rcases h with h | ⟨-, h | h⟩
    · subst h
      exact ⟨0, by omega, by omega⟩
    · obtain ⟨k, h1, h2⟩ := ih (lc x) _ _ y h
      refine ⟨k + 1, ?_, ?_⟩
      · calc (x + 1) * 2 ^ (k + 1) = (lc x + 1) * 2 ^ k := by
              unfold lc; ring
          _ ≤ y + 1 := h1
      · calc y + 1 < (lc x + 2) * 2 ^ k := h2
          _ ≤ (2 * x + 4) * 2 ^ k :=
              Nat.mul_le_mul_right _ (by unfold lc; omega)
          _ = (x + 2) * 2 ^ (k + 1) := by ring
    · obtain ⟨k, h1, h2⟩ := ih (rc x) _ _ y h
      refine ⟨k + 1, ?_, ?_⟩
      · calc (x + 1) * 2 ^ (k + 1) = (2 * x + 2) * 2 ^ k := by ring
          _ ≤ (rc x + 1) * 2 ^ k :=
              Nat.mul_le_mul_right _ (by unfold rc; omega)
          _ ≤ y + 1 := h1
      · calc y + 1 < (rc x + 2) * 2 ^ k := h2
          _ = (x + 2) * 2 ^ (k + 1) := by unfold rc; ring

theorem dyadic_disjoint_aux (u y a b : Nat) (hu : 2 ≤ u)
    (ha1 : u * 2 ^ a ≤ y + 1) (ha2 : y + 1 < (u + 1) * 2 ^ a)
    (hb1 : (u + 1) * 2 ^ b ≤ y + 1) (hb2 : y + 1 < (u + 2) * 2 ^ b) :
    False := by
  rcases le_or_lt a b with hab | hab
  · have h3 : (u + 1) * 2 ^ a ≤ (u + 1) * 2 ^ b :=
      Nat.mul_le_mul_left _ (Nat.pow_le_pow_right (by norm_num) hab)
    omega
  · have h3 : (u + 2) * 2 ^ b ≤ u * 2 ^ a := by
      calc (u + 2) * 2 ^ b ≤ (2 * u) * 2 ^ b :=
            Nat.mul_le_mul_right _ (by omega)
        _ = u * 2 ^ (b + 1) := by ring
        _ ≤ u * 2 ^ a :=
            Nat.mul_le_mul_left _ (Nat.pow_le_pow_right (by norm_num) hab)
    omega

theorem inTree_disjoint (x : Nat) {f1 f2 l1 r1 l2 r2 y : Nat}
    (h1 : inTreeB f1 (lc x) l1 r1 y = true)
    (h2 : inTreeB f2 (rc x) l2 r2 y = true) : False := by
  obtain ⟨a, ha1, ha2⟩ := inTree_dyadic f1 (lc x) l1 r1 y h1
  obtain ⟨b, hb1, hb2⟩ := inTree_dyadic f2 (rc x) l2 r2 y h2
  refine dyadic_disjoint_aux (2 * x + 2) y a b (by omega) ?_ ?_ ?_ ?_
  · calc (2 * x + 2) * 2 ^ a = (lc x + 1) * 2 ^ a := by unfold lc; ring
      _ ≤ y + 1 := ha1
  · calc y + 1 < (lc x + 2) * 2 ^ a := ha2
      _ = (2 * x + 2 + 1) * 2 ^ a := by unfold lc; ring
  · have e : (2 * x + 2 + 1) * 2 ^ b = (rc x + 1) * 2 ^ b := by
      unfold rc; ring
    rw [e]; exact hb1
  · calc y + 1 < (rc x + 2) * 2 ^ b := hb2
      _ = (2 * x + 2 + 2) * 2 ^ b := by unfold rc; ring

theorem not_inTree_lc_self (x : Nat) {fuel l r : Nat}
    (h : inTreeB fuel (lc x) l r x = true) : False := by
  obtain ⟨k, h1, h2⟩ := inTree_dyadic fuel (lc x) l r x h
  have h3 : lc x + 1 ≤ (lc x + 1) * 2 ^ k :=
    Nat.le_mul_of_pos_right _ (Nat.two_pow_pos k)
  unfold lc at h1 h3
  omega

theorem not_inTree_rc_self (x : Nat) {fuel l r : Nat}
    (h : inTreeB fuel (rc x) l r x = true) : False := by
  obtain ⟨k, h1, h2⟩ := inTree_dyadic fuel (rc x) l r x h
  have h3 : rc x + 1 ≤ (rc x + 1) * 2 ^ k :=
    Nat.le_mul_of_pos_right _ (Nat.two_pow_pos k)
  unfold rc at h1 h3
  omega

theorem inTree_self {fuel : Nat} (x l r : Nat) (h : 1 ≤ fuel) :
    inTreeB fuel x l r x = true := by
  match fuel with
  | f + 1 => simp [inTreeB]

theorem seginv_fuel_pos {t v : Nat → Int} {fuel x l r : Nat}
    (h : SegInv t v fuel x l r) : 1 ≤ fuel := by
  match fuel with
  | 0 => simp [SegInv, segInvB] at h
  | f + 1 => omega

theorem segInv_leaf {t v : Nat → Int} {fuel x l r : Nat} (hlr : r ≤ l) :
    SegInv t v (fuel + 1) x l r ↔ t x = v l := by
  simp [SegInv, segInvB, hlr]

theorem segInv_node {t v : Nat → Int} {fuel x l r : Nat} (hlr : ¬ r ≤ l) :
    SegInv t v (fuel + 1) x l r ↔
      t x = min (t (lc x)) (t (rc x)) ∧
        SegInv t v fuel (lc x) l ((l + r) / 2) ∧
        SegInv t v fuel (rc x) ((l + r) / 2 + 1) r := by
  simp [SegInv, segInvB, hlr, Bool.and_eq_true, and_assoc]

theorem seginv_le {t v : Nat → Int} :
    ∀ {fuel x l r : Nat}, SegInv t v fuel x l r →
      ∀ i, l ≤ i → i ≤ r → t x ≤ v i := by
  intro fuel
  induction fuel with
  | zero => intro x l r h; simp [SegInv, segInvB] at h
  | succ fuel ih =>
    intro x l r h i hli hir
    by_cases hlr : r ≤ l
    · have hi : i = l := by omega
      subst hi
      exact le_of_eq ((segInv_leaf hlr).mp h)
    · obtain ⟨hmin, hL, hR⟩ := (segInv_node hlr).mp h
      by_cases him : i ≤ (l + r) / 2
      · exact le_trans (hmin ▸ min_le_left _ _) (ih hL i hli him)
      · exact le_trans (hmin ▸ min_le_right _ _)
          (ih hR i (by omega) hir)

theorem seginv_attained {t v : Nat → Int} :
    ∀ {fuel x l r : Nat}, SegInv t v fuel x l r → l ≤ r →
      ∃ i, l ≤ i ∧ i ≤ r ∧ v i = t x := by
  intro fuel
  induction fuel with
  | zero => intro x l r h; simp [SegInv, segInvB] at h
  | succ fuel ih =>
    intro x l r h hlr0
    by_cases hlr : r ≤ l
    · exact ⟨l, le_refl l, by omega, ((segInv_leaf hlr).mp h).symm⟩
    · obtain ⟨hmin, hL, hR⟩ := (segInv_node hlr).mp h
      have hmidl : l ≤ (l + r) / 2 := by omega
      have hmidr : (l + r) / 2 + 1 ≤ r := by omega
      rcases min_cases (t (lc x)) (t (rc x)) with ⟨he, _⟩ | ⟨he, _⟩
      · obtain ⟨i, hi1, hi2, hi3⟩ := ih hL hmidl
        exact ⟨i, hi1, by omega, by rw [hi3, hmin, he]⟩
      · obtain ⟨i, hi1, hi2, hi3⟩ := ih hR (by omega)
        exact ⟨i, by omega, hi2, by rw [hi3, hmin, he]⟩

theorem seginv_congr_v {t v w : Nat → Int} :
    ∀ {fuel x l r : Nat}, l ≤ r → (∀ i, l ≤ i → i ≤ r → v i = w i) →
      SegInv t v fuel x l r → SegInv t w fuel x l r := by
  intro fuel
  induction fuel with
  | zero => intro x l r _ _ h; simp [SegInv, segInvB] at h
  | succ fuel ih =>
    intro x l r hlr0 hvw h
    by_cases hlr : r ≤ l
    · exact (segInv_leaf hlr).mpr
        (((segInv_leaf hlr).mp h).trans (hvw l (le_refl l) hlr0))
    · obtain ⟨hmin, hL, hR⟩ := (segInv_node hlr).mp h
      exact (segInv_node hlr).mpr
        ⟨hmin,
          ih (by omega) (fun i h1 h2 => hvw i h1 (by omega)) hL,
          ih (by omega) (fun i h1 h2 => hvw i (by omega) h2) hR⟩

theorem seginv_congr_t {v : Nat → Int} :
    ∀ {fuel x l r : Nat} {t t2 : Nat → Int},
      (∀ y, inTreeB fuel x l r y = true → t y = t2 y) →
      SegInv t v fuel x l r → SegInv t2 v fuel x l r := by
  intro fuel
  induction fuel with
  | zero => intro x l r t t2 _ h; simp [SegInv, segInvB] at h
  | succ fuel ih =>
    intro x l r t t2 htt h
    have hself : t x = t2 x := htt x (inTree_self x l r (by omega))
    by_cases hlr : r ≤ l
    · exact (segInv_leaf hlr).mpr (hself ▸ (segInv_leaf hlr).mp h)
    · obtain ⟨hmin, hL, hR⟩ := (segInv_node hlr).mp h
      have hfl : 1 ≤ fuel := seginv_fuel_pos hL
      have hmemL : ∀ y, inTreeB fuel (lc x) l ((l + r) / 2) y = true →
          inTreeB (fuel + 1) x l r y = true := by
        intro y hy
        simp [inTreeB, hlr, hy]
      have hmemR : ∀ y,
          inTreeB fuel (rc x) ((l + r) / 2 + 1) r y = true →
          inTreeB (fuel + 1) x l r y = true := by
        intro y hy
        simp [inTreeB, hlr, hy]
      have hlc : t (lc x) = t2 (lc x) :=
        htt _ (hmemL _ (inTree_self _ _ _ hfl))
      have hrc : t (rc x) = t2 (rc x) :=
        htt _ (hmemR _ (inTree_self _ _ _ hfl))
      exact (segInv_node hlr).mpr
        ⟨by rw [← hself, ← hlc, ← hrc]; exact hmin,
          ih (fun y hy => htt y (hmemL y hy)) hL,
          ih (fun y hy => htt y (hmemR y hy)) hR⟩

theorem inTreeB_false_elim {fuel x l r y : Nat} (hlr : ¬ r ≤ l)
    (hy : inTreeB (fuel + 1) x l r y = false) :
    y ≠ x ∧ inTreeB fuel (lc x) l ((l + r) / 2) y = false ∧
      inTreeB fuel (rc x) ((l + r) / 2 + 1) r y = false := by
  simp only [inTreeB] at hy
  rw [Bool.or_eq_false_iff] at hy
  obtain ⟨h1, h2⟩ := hy
  rw [Bool.and_eq_false_iff] at h2
  rcases h2 with h2 | h2
  · exact absurd (by simpa using h2) hlr
  · rw [Bool.or_eq_false_iff] at h2
    exact ⟨by simpa using h1, h2.1, h2.2⟩

theorem inTreeB_false_leaf {fuel x l r y : Nat} (hlr : r ≤ l)
    (hy : inTreeB (fuel + 1) x l r y = false) : y ≠ x := by
  simp only [inTreeB, Bool.or_eq_false_iff, beq_eq_false_iff_ne] at hy
  exact hy.1

theorem not_inTree_of_rc {fuel f2 x l r l2 r2 y : Nat}
    (hy : inTreeB fuel (lc x) l r y = true) :
    inTreeB f2 (rc x) l2 r2 y = false := by
  cases hb : inTreeB f2 (rc x) l2 r2 y
  · rfl
  · exact (inTree_disjoint x hy hb).elim

theorem not_inTree_of_lc {fuel f2 x l r l2 r2 y : Nat}
    (hy : inTreeB fuel (rc x) l r y = true) :
    inTreeB f2 (lc x) l2 r2 y = false := by
  cases hb : inTreeB f2 (lc x) l2 r2 y
  · rfl
  · exact (inTree_disjoint x hb hy).elim

theorem lc_ne (x : Nat) : lc x ≠ x := by unfold lc; omega

theorem rc_ne (x : Nat) : rc x ≠ x := by unfold rc; omega

theorem build_frame (arrF : Nat → Int) (len : Nat) (inf : Int) :
    ∀ fuel (t : Nat → Int) x l r y, inTreeB fuel x l r y = false →
      build_recursive arrF len inf fuel t x l r y = t y := by
  intro fuel
  induction fuel with
  | zero => intro t x l r y _; rfl
  | succ fuel ih =>
    intro t x l r y hy
    by_cases hlr : r ≤ l
    · have hne := inTreeB_false_leaf hlr hy
      simp only [build_recursive, if_pos hlr]
      exact Function.update_noteq hne _ _
    · obtain ⟨hne, hfL, hfR⟩ := inTreeB_false_elim hlr hy
      simp only [build_recursive, if_neg hlr]
      rw [Function.update_noteq hne]
      rw [ih _ _ _ _ _ hfR, ih _ _ _ _ _ hfL]

theorem build_seginv (arrF : Nat → Int) (len : Nat) (inf : Int) :
    ∀ fuel (t : Nat → Int) x l r, r - l < fuel →
      SegInv (build_recursive arrF len inf fuel t x l r)
        (fun i => if i < len then arrF i else inf) fuel x l r := by
  intro fuel
  induction fuel with
  | zero => intro t x l r h; omega
  | succ fuel ih =>
    intro t x l r hfuel
    by_cases hlr : r ≤ l
    · rw [segInv_leaf hlr]
      simp only [build_recursive, if_pos hlr]
      exact Function.update_same _ _ _
    · rw [segInv_node hlr]
      simp only [build_recursive, if_neg hlr]
      have hIH1 := ih t (lc x) l ((l + r) / 2) (by omega)
      have hIH2 := ih (build_recursive arrF len inf fuel t (lc x) l
        ((l + r) / 2)) (rc x) ((l + r) / 2 + 1) r (by omega)
      set t1 := build_recursive arrF len inf fuel t (lc x) l ((l + r) / 2)
        with ht1
      set t2 := build_recursive arrF len inf fuel t1 (rc x)
        ((l + r) / 2 + 1) r with ht2
      have hLkept : SegInv t2 (fun i => if i < len then arrF i else inf)
          fuel (lc x) l ((l + r) / 2) := by
        apply seginv_congr_t (t := t1) _ hIH1
        intro y hy
        exact (build_frame arrF len inf fuel t1 (rc x) _ _ y
          (not_inTree_of_rc hy)).symm
      refine ⟨?_, ?_, ?_⟩
      · rw [Function.update_same]
        rw [Function.update_noteq (lc_ne x), Function.update_noteq (rc_ne x)]
      · exact seginv_congr_t
          (fun y hy => (Function.update_noteq
            (fun h => not_inTree_lc_self x (h ▸ hy)) _ _).symm) hLkept
      · exact seginv_congr_t
          (fun y hy => (Function.update_noteq
            (fun h => not_inTree_rc_self x (h ▸ hy)) _ _).symm) hIH2

theorem update_frame (pos : Nat) (newVal : Int) :
    ∀ fuel (t : Nat → Int) x l r y, inTreeB fuel x l r y = false →
      update_recursive pos newVal fuel t x l r y = t y := by
  intro fuel
  induction fuel with
  | zero => intro t x l r y _; rfl
  | succ fuel ih =>
    intro t x l r y hy
    by_cases hlr : r ≤ l
    · have hne := inTreeB_false_leaf hlr hy
      simp only [update_recursive, if_pos hlr]
      exact Function.update_noteq hne _ _
    · obtain ⟨hne, hfL, hfR⟩ := inTreeB_false_elim hlr hy
      simp only [update_recursive, if_neg hlr]
      by_cases hpos : pos ≤ (l + r) / 2
      · rw [if_pos hpos, Function.update_noteq hne]
        exact ih _ _ _ _ _ hfL
      · rw [if_neg hpos, Function.update_noteq hne]
        exact ih _ _ _ _ _ hfR

theorem update_seginv (pos : Nat) (newVal : Int) :
    ∀ fuel (t v : Nat → Int) x l r, SegInv t v fuel x l r →
      l ≤ pos → pos ≤ r →
      SegInv (update_recursive pos newVal fuel t x l r)
        (Function.update v pos newVal) fuel x l r := by
  intro fuel
  induction fuel with
  | zero => intro t v x l r h; simp [SegInv, segInvB] at h
  | succ fuel ih =>
    intro t v x l r h hpl hpr
    by_cases hlr : r ≤ l
    · have hp : pos = l := by omega
      subst hp
      rw [segInv_leaf hlr]
      simp only [update_recursive, if_pos hlr]
      rw [Function.update_same, Function.update_same]
    · obtain ⟨hmin, hL, hR⟩ := (segInv_node hlr).mp h
      rw [segInv_node hlr]
      simp only [update_recursive, if_neg hlr]
      by_cases hpos : pos ≤ (l + r) / 2
      · rw [if_pos hpos]
        set t1 := update_recursive pos newVal fuel t (lc x) l ((l + r) / 2)
          with ht1
        have hIH : SegInv t1 (Function.update v pos newVal) fuel (lc x) l
            ((l + r) / 2) := ih t v (lc x) l ((l + r) / 2) hL hpl hpos
        have hRkept : SegInv t1 (Function.update v pos newVal) fuel (rc x)
            ((l + r) / 2 + 1) r := by
          apply seginv_congr_v (by omega)
            (fun i h1 h2 => (Function.update_noteq (by omega) _ v).symm)
          exact seginv_congr_t
            (fun y hy => (update_frame pos newVal fuel t (lc x) _ _ y
              (not_inTree_of_lc hy)).symm) hR
        refine ⟨?_, ?_, ?_⟩
        · rw [Function.update_same, Function.update_noteq (lc_ne x),
            Function.update_noteq (rc_ne x)]
        · exact seginv_congr_t
            (fun y hy => (Function.update_noteq
              (fun h => not_inTree_lc_self x (h ▸ hy)) _ _).symm) hIH
        · exact seginv_congr_t
            (fun y hy => (Function.update_noteq
              (fun h => not_inTree_rc_self x (h ▸ hy)) _ _).symm) hRkept
      · rw [if_neg hpos]
        set t1 := update_recursive pos newVal fuel t (rc x)
          ((l + r) / 2 + 1) r with ht1
        have hIH : SegInv t1 (Function.update v pos newVal) fuel (rc x)
            ((l + r) / 2 + 1) r :=
          ih t v (rc x) ((l + r) / 2 + 1) r hR (by omega) hpr
        have hLkept : SegInv t1 (Function.update v pos newVal) fuel (lc x)
            l ((l + r) / 2) := by
          apply seginv_congr_v (by omega)
            (fun i h1 h2 => (Function.update_noteq (by omega) _ v).symm)
          exact seginv_congr_t
            (fun y hy => (update_frame pos newVal fuel t (rc x) _ _ y
              (not_inTree_of_rc hy)).symm) hL
        refine ⟨?_, ?_, ?_⟩
        · rw [Function.update_same, Function.update_noteq (lc_ne x),
            Function.update_noteq (rc_ne x)]
        · exact seginv_congr_t
            (fun y hy => (Function.update_noteq
              (fun h => not_inTree_lc_self x (h ▸ hy)) _ _).symm) hLkept
        · exact seginv_congr_t
            (fun y hy => (Function.update_noteq
              (fun h => not_inTree_rc_self x (h ▸ hy)) _ _).symm) hIH

theorem find_min_spec :
    ∀ fuel (t v : Nat → Int) x l r, SegInv t v fuel x l r → l ≤ r →
      l ≤ find_min_loop t fuel x l r ∧ find_min_loop t fuel x l r ≤ r ∧
        v (find_min_loop t fuel x l r) = t x ∧
        ∀ j, l ≤ j → j < find_min_loop t fuel x l r → t x < v j := by
  intro fuel
  induction fuel with
  | zero => intro t v x l r h; simp [SegInv, segInvB] at h
  | succ fuel ih =>
    intro t v x l r h hlr0
    by_cases hlr : l < r
    · obtain ⟨hmin, hL, hR⟩ := (segInv_node (by omega)).mp h
      simp only [find_min_loop, if_pos hlr]
      by_cases hcmp : t (lc x) ≤ t (rc x)
      · rw [if_pos hcmp]
        have hx : t x = t (lc x) := by rw [hmin]; exact min_eq_left hcmp
        obtain ⟨h1, h2, h3, h4⟩ := ih t v (lc x) l ((l + r) / 2) hL
          (by omega)
        exact ⟨h1, by omega, by rw [h3, hx],
          fun j hj1 hj2 => hx ▸ h4 j hj1 hj2⟩
      · rw [if_neg hcmp]
        push_neg at hcmp
        have hx : t x = t (rc x) := by
          rw [hmin]; exact min_eq_right (le_of_lt hcmp)
        obtain ⟨h1, h2, h3, h4⟩ := ih t v (rc x) ((l + r) / 2 + 1) r hR
          (by omega)
        refine ⟨by omega, h2, by rw [h3, hx], ?_⟩
        intro j hj1 hj2
        by_cases hjm : j ≤ (l + r) / 2
        · exact lt_of_lt_of_le (hx ▸ hcmp) (seginv_le hL j hj1 hjm)
        · exact hx ▸ h4 j (by omega) hj2
    · have hlreq : l = r := by omega
      simp only [find_min_loop, if_neg hlr]
      obtain ⟨fuel2, rfl2⟩ : ∃ f2, fuel + 1 = f2 + 1 := ⟨fuel, rfl⟩
      have hleaf := (segInv_leaf (by omega)).mp h
      exact ⟨le_refl l, by omega, hleaf.symm, fun j h1 h2 => by omega⟩

theorem thresh_self (arrows : Nat → List Int) (now : Nat → Nat) (pre : Int)
    (l : Nat) : thresh arrows now pre l l = pre := by
  simp [thresh]

theorem thresh_le_init (arrows : Nat → List Int) (now : Nat → Nat)
    (pre : Int) (l i : Nat) : thresh arrows now pre l i ≤ pre :=
  foldl_min_le_init _ _ _

theorem thresh_split (arrows : Nat → List Int) (now : Nat → Nat) (pre : Int)
    (l m i : Nat) (h1 : l ≤ m) (h2 : m ≤ i) :
    thresh arrows now pre l i =
      thresh arrows now (thresh arrows now pre l m) m i := by
  unfold thresh
  have e1 : List.range' l (m - l) ++ List.range' m (i - m) =
      List.range' l (i - l) := by
    have e2 := List.range'_append l (m - l) (i - m) 1
    rw [show l + 1 * (m - l) = m by omega] at e2
    rw [show i - m + (m - l) = i - l by omega] at e2
    exact e2
  rw [← e1, List.foldl_append]

theorem thresh_congr (arrows : Nat → List Int) {now1 now2 : Nat → Nat}
    (pre : Int) (m i : Nat)
    (h : ∀ j, m ≤ j → j < i → now1 j = now2 j) :
    thresh arrows now1 pre m i = thresh arrows now2 pre m i := by
  unfold thresh
  have : ∀ (k : Nat) (st : Nat) (acc : Int), (∀ j, st ≤ j → j < st + k →
      now1 j = now2 j) →
      (List.range' st k).foldl
          (fun acc j => min acc (readA arrows now1 j)) acc =
        (List.range' st k).foldl
          (fun acc j => min acc (readA arrows now2 j)) acc := by
    intro k
    induction k with
    | zero => intro st acc _; rfl
    | succ k ih =>
      intro st acc hagree
      rw [List.range'_succ]
      simp only [List.foldl_cons]
      rw [show readA arrows now1 st = readA arrows now2 st by
        unfold readA; rw [hagree st (le_refl st) (by omega)]]
      exact ih (st + 1) _ (fun j hj1 hj2 => hagree j (by omega) (by omega))
  by_cases him : m ≤ i
  · exact this (i - m) m pre (fun j hj1 hj2 => h j hj1 (by omega))
  · rw [show i - m = 0 by omega]
    rfl

theorem thresh_eq_min (arrows : Nat → List Int) (now : Nat → Nat)
    {t : Nat → Int} {fuel z l m : Nat} (pre : Int)
    (hInv : SegInv t (readA arrows now) fuel z l m) (hlm : l ≤ m) :
    thresh arrows now pre l (m + 1) = min pre (t z) := by
  apply le_antisymm
  · apply le_min
    · exact thresh_le_init arrows now pre l (m + 1)
    · obtain ⟨i0, hi1, hi2, hi3⟩ := seginv_attained hInv hlm
      calc thresh arrows now pre l (m + 1) ≤ readA arrows now i0 := by
            apply foldl_min_le_of_mem
            rw [List.mem_range'_1]
            omega
        _ = t z := hi3
  · apply le_foldl_min
    · exact min_le_left _ _
    · intro j hj
      rw [List.mem_range'_1] at hj
      exact le_trans (min_le_right _ _)
        (seginv_le hInv j hj.1 (by omega))

theorem readA_big_past_end (arrows : Nat → List Int)
    (HB : ∀ i, ∀ val ∈ arrows i, val < intMax) (now : Nat → Nat) (i : Nat)
    (h : intMax ≤ readA arrows now i) : (arrows i).length ≤ now i := by
  by_contra hc
  push_neg at hc
  unfold readA at h
  rw [if_neg (by omega)] at h
  exact absurd (HB i _ (getD_mem_of_lt _ _ hc)) (not_lt.mpr h)

/-- Behaviour of one prefix-min cascade on a subtree: outside the segment
nothing changes, and inside, each cursor jumps to the count of elements at
most the running prefix minimum (of pre and the pre-cascade heads to its
left within the segment); the tree invariant is preserved for the new
heads. -/
theorem prefix_min_spec (arrows : Nat → List Int) (par : Bool) (g : Int)
    (HS : ∀ i, (arrows i).Sorted (· < ·))
    (HB : ∀ i, ∀ val ∈ arrows i, val < intMax) :
    ∀ fuel (s : PMState) x l r pre, l ≤ r → pre ≤ intMax →
      SegInv s.t (readA arrows s.now) fuel x l r →
      (∀ i, (i < l ∨ r < i) →
        (prefix_min_recursive arrows intMax par g fuel s x l r pre).now i =
          s.now i) ∧
      (∀ y, inTreeB fuel x l r y = false →
        (prefix_min_recursive arrows intMax par g fuel s x l r pre).t y =
          s.t y) ∧
      (∀ i, l ≤ i → i ≤ r →
        (prefix_min_recursive arrows intMax par g fuel s x l r pre).now i =
          max (s.now i) (cntLE arrows i (thresh arrows s.now pre l i))) ∧
      SegInv (prefix_min_recursive arrows intMax par g fuel s x l r pre).t
        (readA arrows
          (prefix_min_recursive arrows intMax par g fuel s x l r pre).now)
        fuel x l r := by
  intro fuel
  induction fuel with
  | zero => intro s x l r pre _ _ h; simp [SegInv, segInvB] at h
  | succ fuel ih =>
    intro s x l r pre hlr0 hpre h
    by_cases hprune : pre < s.t x
    · have hred : prefix_min_recursive arrows intMax par g (fuel + 1) s
          x l r pre = s := by
        simp only [prefix_min_recursive, if_pos hprune]
      refine ⟨fun i _ => by rw [hred], fun y _ => by rw [hred], ?_,
        by rw [hred]; exact h⟩
      intro i hli hir
      rw [hred]
      have hcnt : cntLE arrows i (thresh arrows s.now pre l i) ≤ s.now i := by
        apply cntLE_le_of_head_gt
        calc thresh arrows s.now pre l i ≤ pre :=
              thresh_le_init arrows s.now pre l i
          _ < s.t x := hprune
          _ ≤ readA arrows s.now i := seginv_le h i hli hir
      omega
    · by_cases hleaf : r ≤ l
      · have hleq : l = r := le_antisymm hlr0 hleaf
        simp only [prefix_min_recursive, if_neg hprune, if_pos hleaf]
        refine ⟨?_, ?_, ?_, ?_⟩
        · intro i hi
          exact Function.update_noteq (by omega) _ _
        · intro y hy
          exact Function.update_noteq (inTreeB_false_leaf hleaf hy) _ _
        · intro i h1 h2
          have hieq : i = l := by omega
          subst hieq
          rw [thresh_self, Function.update_same]
          exact leaf_advance_eq pre (arrows i) (HS i) (s.now i)
        · rw [segInv_leaf hleaf]
          exact Function.update_same _ _ _
      · obtain ⟨hmin, hL, hR⟩ := (segInv_node hleaf).mp h
        have hmidl : l ≤ (l + r) / 2 := by omega
        have hmidr : (l + r) / 2 + 1 ≤ r := by omega
        by_cases hEq : s.t x = s.t (rc x)
        · by_cases hA : s.t (lc x) ≤ pre ∧ s.t (lc x) < intMax
          · -- both children are visited, the right with the old left min
            simp only [prefix_min_recursive, if_neg hprune, if_neg hleaf,
              if_pos hEq, if_pos hA]
            obtain ⟨A1, B1, C1, D1⟩ :=
              ih s (lc x) l ((l + r) / 2) pre hmidl hpre hL
            set s1 := prefix_min_recursive arrows intMax par g fuel s
              (lc x) l ((l + r) / 2) pre with hs1
            have hR1 : SegInv s1.t (readA arrows s1.now) fuel (rc x)
                ((l + r) / 2 + 1) r := by
              apply seginv_congr_v (by omega)
                (fun i h1 h2 => by
                  unfold readA; rw [A1 i (Or.inr (by omega))])
              exact seginv_congr_t
                (fun y hy => (B1 y (not_inTree_of_lc hy)).symm) hR
            obtain ⟨A2, B2, C2, D2⟩ :=
              ih s1 (rc x) ((l + r) / 2 + 1) r (s.t (lc x)) hmidr
                (le_trans hA.1 hpre) hR1
            set s2 := prefix_min_recursive arrows intMax par g fuel s1
              (rc x) ((l + r) / 2 + 1) r (s.t (lc x)) with hs2
            have hth : thresh arrows s.now pre l ((l + r) / 2 + 1) =
                s.t (lc x) := by
              rw [thresh_eq_min arrows s.now pre hL hmidl]
              exact min_eq_right hA.1
            refine ⟨?_, ?_, ?_, ?_⟩
            · intro i hi
              show s2.now i = s.now i
              rcases hi with hi | hi
              · rw [A2 i (Or.inl (by omega)), A1 i (Or.inl hi)]
              · rw [A2 i (Or.inr hi), A1 i (Or.inr (by omega))]
            · intro y hy
              obtain ⟨hyx, hyL, hyR⟩ := inTreeB_false_elim hleaf hy
              show Function.update s2.t x _ y = s.t y
              rw [Function.update_noteq hyx, B2 y hyR, B1 y hyL]
            · intro i h1 h2
              show s2.now i = _
              by_cases him : i ≤ (l + r) / 2
              · rw [A2 i (Or.inl (by omega))]
                exact C1 i h1 him
              · rw [C2 i (by omega) h2]
                rw [A1 i (Or.inr (by omega))]
                rw [thresh_split arrows s.now pre l ((l + r) / 2 + 1) i
                  (by omega) (by omega), hth]
                rw [thresh_congr arrows (s.t (lc x)) ((l + r) / 2 + 1) i
                  (fun j hj1 hj2 => A1 j (Or.inr (by omega)))]
            · rw [segInv_node hleaf]
              refine ⟨?_, ?_, ?_⟩
              · show Function.update s2.t x _ x = min
                  (Function.update s2.t x _ (lc x))
                  (Function.update s2.t x _ (rc x))
                rw [Function.update_same, Function.update_noteq (lc_ne x),
                  Function.update_noteq (rc_ne x)]
              · have step1 : SegInv s2.t (readA arrows s1.now) fuel (lc x)
                    l ((l + r) / 2) :=
                  seginv_congr_t
                    (fun y hy => (B2 y (not_inTree_of_rc hy)).symm) D1
                have step2 : SegInv s2.t (readA arrows s2.now) fuel (lc x)
                    l ((l + r) / 2) :=
                  seginv_congr_v (by omega)
                    (fun i h1 h2 => by
                      unfold readA; rw [A2 i (Or.inl (by omega))]) step1
                exact seginv_congr_t
                  (fun y hy => (Function.update_noteq
                    (fun he => not_inTree_lc_self x (he ▸ hy)) _ _).symm)
                  step2
              · exact seginv_congr_t
                  (fun y hy => (Function.update_noteq
                    (fun he => not_inTree_rc_self x (he ▸ hy)) _ _).symm) D2
          · -- only the right child is visited, threshold unchanged
            simp only [prefix_min_recursive, if_neg hprune, if_neg hleaf,
              if_pos hEq, if_neg hA]
            obtain ⟨A2, B2, C2, D2⟩ :=
              ih s (rc x) ((l + r) / 2 + 1) r pre hmidr hpre hR
            set s2 := prefix_min_recursive arrows intMax par g fuel s
              (rc x) ((l + r) / 2 + 1) r pre with hs2
            have hple : pre ≤ s.t (lc x) := by
              by_cases hlcp : s.t (lc x) ≤ pre
              · have hbig : intMax ≤ s.t (lc x) := by
                  rcases not_and_or.mp hA with hcon | hcon
                  · exact absurd hlcp hcon
                  · omega
                omega
              · omega
            have hcntL : ∀ i, l ≤ i → i ≤ (l + r) / 2 →
                cntLE arrows i (thresh arrows s.now pre l i) ≤ s.now i := by
              intro i h1 h2
              by_cases hlcp : pre < s.t (lc x)
              · apply cntLE_le_of_head_gt
                calc thresh arrows s.now pre l i ≤ pre :=
                      thresh_le_init arrows s.now pre l i
                  _ < s.t (lc x) := hlcp
                  _ ≤ readA arrows s.now i := seginv_le hL i h1 h2
              · have hpe : pre = s.t (lc x) := le_antisymm hple
                  (not_lt.mp hlcp)
                have hbig : intMax ≤ s.t (lc x) := by
                  rcases not_and_or.mp hA with hcon | hcon
                  · exact absurd (le_of_eq hpe.symm) hcon
                  · omega
                have hlen := readA_big_past_end arrows HB s.now i
                  (le_trans hbig (seginv_le hL i h1 h2))
                calc cntLE arrows i (thresh arrows s.now pre l i) ≤
                      (arrows i).length := takeWhile_length_le _ _
                  _ ≤ s.now i := hlen
            refine ⟨?_, ?_, ?_, ?_⟩
            · intro i hi
              show s2.now i = s.now i
              rcases hi with hi | hi
              · exact A2 i (Or.inl (by omega))
              · exact A2 i (Or.inr hi)
            · intro y hy
              obtain ⟨hyx, hyL, hyR⟩ := inTreeB_false_elim hleaf hy
              show Function.update s2.t x _ y = s.t y
              rw [Function.update_noteq hyx, B2 y hyR]
            · intro i h1 h2
              show s2.now i = _
              by_cases him : i ≤ (l + r) / 2
              · rw [A2 i (Or.inl (by omega))]
                have := hcntL i h1 him
                omega
              · rw [C2 i (by omega) h2]
                congr 1
                rw [thresh_split arrows s.now pre l ((l + r) / 2 + 1) i
                  (by omega) (by omega)]
                rw [thresh_eq_min arrows s.now pre hL hmidl]
                rw [min_eq_left hple]
            · rw [segInv_node hleaf]
              refine ⟨?_, ?_, ?_⟩
              · rw [Function.update_same, Function.update_noteq (lc_ne x),
                  Function.update_noteq (rc_ne x)]
              · have step1 : SegInv s2.t (readA arrows s.now) fuel (lc x)
                    l ((l + r) / 2) :=
                  seginv_congr_t
                    (fun y hy => (B2 y (not_inTree_of_rc hy)).symm) hL
                have step2 : SegInv s2.t (readA arrows s2.now) fuel (lc x)
                    l ((l + r) / 2) :=
                  seginv_congr_v (by omega)
                    (fun i h1 h2 => by
                      unfold readA; rw [A2 i (Or.inl (by omega))]) step1
                exact seginv_congr_t
                  (fun y hy => (Function.update_noteq
                    (fun he => not_inTree_lc_self x (he ▸ hy)) _ _).symm)
                  step2
              · exact seginv_congr_t
                  (fun y hy => (Function.update_noteq
                    (fun he => not_inTree_rc_self x (he ▸ hy)) _ _).symm) D2
        · -- the minimum is strictly in the left child
          simp only [prefix_min_recursive, if_neg hprune, if_neg hleaf,
            if_neg hEq]
          have hlt : s.t (lc x) < s.t (rc x) := by
            rcases le_total (s.t (lc x)) (s.t (rc x)) with hc | hc
            · rcases lt_or_eq_of_le hc with hc2 | hc2
              · exact hc2
              · exact absurd (by rw [hmin, hc2, min_self]) hEq
            · exact absurd (by rw [hmin]; exact min_eq_right hc) hEq
          obtain ⟨A1, B1, C1, D1⟩ :=
            ih s (lc x) l ((l + r) / 2) pre hmidl hpre hL
          set s1 := prefix_min_recursive arrows intMax par g fuel s
            (lc x) l ((l + r) / 2) pre with hs1
          have hcntR : ∀ i, (l + r) / 2 + 1 ≤ i → i ≤ r →
              cntLE arrows i (thresh arrows s.now pre l i) ≤ s.now i := by
            intro i h1 h2
            apply cntLE_le_of_head_gt
            calc thresh arrows s.now pre l i ≤
                  thresh arrows s.now pre l ((l + r) / 2 + 1) := by
                  rw [thresh_split arrows s.now pre l ((l + r) / 2 + 1) i
                    (by omega) (by omega)]
                  exact thresh_le_init _ _ _ _ _
              _ = min pre (s.t (lc x)) :=
                  thresh_eq_min arrows s.now pre hL hmidl
              _ ≤ s.t (lc x) := min_le_right _ _
              _ < s.t (rc x) := hlt
              _ ≤ readA arrows s.now i := seginv_le hR i h1 h2
          refine ⟨?_, ?_, ?_, ?_⟩
          · intro i hi
            show s1.now i = s.now i
            rcases hi with hi | hi
            · exact A1 i (Or.inl hi)
            · exact A1 i (Or.inr (by omega))
          · intro y hy
            obtain ⟨hyx, hyL, hyR⟩ := inTreeB_false_elim hleaf hy
            show Function.update s1.t x _ y = s.t y
            rw [Function.update_noteq hyx, B1 y hyL]
          · intro i h1 h2
            show s1.now i = _
            by_cases him : i ≤ (l + r) / 2
            · exact C1 i h1 him
            · rw [A1 i (Or.inr (by omega))]
              have := hcntR i (by omega) h2
              omega
          · rw [segInv_node hleaf]
            refine ⟨?_, ?_, ?_⟩
            · rw [Function.update_same, Function.update_noteq (lc_ne x),
                Function.update_noteq (rc_ne x)]
            · exact seginv_congr_t
                (fun y hy => (Function.update_noteq
                  (fun he => not_inTree_lc_self x (he ▸ hy)) _ _).symm) D1
            · have step1 : SegInv s1.t (readA arrows s.now) fuel (rc x)
                  ((l + r) / 2 + 1) r :=
                seginv_congr_t
                  (fun y hy => (B1 y (not_inTree_of_lc hy)).symm) hR
              have step2 : SegInv s1.t (readA arrows s1.now) fuel (rc x)
                  ((l + r) / 2 + 1) r :=
                seginv_congr_v (by omega)
                  (fun i h1 h2 => by
                    unfold readA; rw [A1 i (Or.inr (by omega))]) step1
              exact seginv_congr_t
                (fun y hy => (Function.update_noteq
                  (fun he => not_inTree_rc_self x (he ▸ hy)) _ _).symm)
                step2

/-- C7: on a freshly built prefix-minimum tree over `[0, n-1]`, the
downward walk `find_min_index` returns an index in range whose key equals
the root value, the root value is the global minimum of the keys, and
every key strictly left of the returned index is strictly larger — i.e.
the walk returns the smallest index attaining the global minimum. -/
theorem claim_C7 (arrF t0 t v : Nat → Int) (inf : Int) (n : Nat)
    (hn : 1 ≤ n)
    (ht : t = build_recursive arrF n inf n t0 0 0 (n - 1))
    (hv : v = fun i => if i < n then arrF i else inf) :
    find_min_index t n ≤ n - 1 ∧
    v (find_min_index t n) = t 0 ∧
    (∀ j, j ≤ n - 1 → t 0 ≤ v j) ∧
    (∀ j, j < find_min_index t n → t 0 < v j) := by
  subst ht hv
  have hinv := build_seginv arrF n inf n t0 0 0 (n - 1) (by omega)
  obtain ⟨h1, h2, h3, h4⟩ := find_min_spec n _ _ 0 0 (n - 1) hinv (by omega)
  exact ⟨h2, h3, fun j hj => seginv_le hinv j (by omega) hj,
    fun j hj => h4 j (by omega) hj⟩

theorem claim_C7_witness :
    (1:Nat) ≤ 4 ∧
    (find_min_index
        (build_recursive (fun i => ([5, 3, 7, 3] : List Int).getD i 0) 4
          intMax 4 (fun _ => 0) 0 0 (4 - 1)) 4 ≤ 4 - 1 ∧
      (fun i => if i < 4 then ([5, 3, 7, 3] : List Int).getD i 0 else intMax)
          (find_min_index
            (build_recursive (fun i => ([5, 3, 7, 3] : List Int).getD i 0) 4
              intMax 4 (fun _ => 0) 0 0 (4 - 1)) 4) =
        build_recursive (fun i => ([5, 3, 7, 3] : List Int).getD i 0) 4
          intMax 4 (fun _ => 0) 0 0 (4 - 1) 0 ∧
      (∀ j, j ≤ 4 - 1 →
        build_recursive (fun i => ([5, 3, 7, 3] : List Int).getD i 0) 4
            intMax 4 (fun _ => 0) 0 0 (4 - 1) 0 ≤
          (fun i => if i < 4 then ([5, 3, 7, 3] : List Int).getD i 0
            else intMax) j) ∧
      (∀ j, j < find_min_index
          (build_recursive (fun i => ([5, 3, 7, 3] : List Int).getD i 0) 4
            intMax 4 (fun _ => 0) 0 0 (4 - 1)) 4 →
        build_recursive (fun i => ([5, 3, 7, 3] : List Int).getD i 0) 4
            intMax 4 (fun _ => 0) 0 0 (4 - 1) 0 <
          (fun i => if i < 4 then ([5, 3, 7, 3] : List Int).getD i 0
            else intMax) j)) :=
  ⟨by decide,
    claim_C7 (fun i => ([5, 3, 7, 3] : List Int).getD i 0) (fun _ => 0)
      (build_recursive (fun i => ([5, 3, 7, 3] : List Int).getD i 0) 4
        intMax 4 (fun _ => 0) 0 0 (4 - 1))
      (fun i => if i < 4 then ([5, 3, 7, 3] : List Int).getD i 0 else intMax)
      intMax 4 (by decide) rfl rfl⟩

/-- C8: the min-tree invariant (every internal node stores the minimum of
its children, every leaf stores its key) is established by `build` and
preserved by point `update`, by `remove` (an update to numeric-limits max),
and by the prefix-min cascade. -/
theorem claim_C8 (arrows : Nat → List Int) (par : Bool)
    (g pre newVal inf : Int) (arrF t0 t v : Nat → Int)
    (len fuel x l r pos : Nat) (s : PMState)
    (HS : ∀ i, (arrows i).Sorted (· < ·))
    (HB : ∀ i, ∀ val ∈ arrows i, val < intMax) :
    (r - l < fuel → SegInv (build_recursive arrF len inf fuel t0 x l r)
      (fun i => if i < len then arrF i else inf) fuel x l r) ∧
    (SegInv t v fuel x l r → l ≤ pos → pos ≤ r →
      SegInv (update_recursive pos newVal fuel t x l r)
        (Function.update v pos newVal) fuel x l r) ∧
    (SegInv t v fuel x l r → l ≤ pos → pos ≤ r →
      SegInv (update_recursive pos intMax fuel t x l r)
        (Function.update v pos intMax) fuel x l r) ∧
    (l ≤ r → pre ≤ intMax → SegInv s.t (readA arrows s.now) fuel x l r →
      SegInv (prefix_min_recursive arrows intMax par g fuel s x l r pre).t
        (readA arrows
          (prefix_min_recursive arrows intMax par g fuel s x l r pre).now)
        fuel x l r) :=
  ⟨fun h => build_seginv arrF len inf fuel t0 x l r h,
    fun h h1 h2 => update_seginv pos newVal fuel t v x l r h h1 h2,
    fun h h1 h2 => update_seginv pos intMax fuel t v x l r h h1 h2,
    fun h1 h2 h3 =>
      (prefix_min_spec arrows par g HS HB fuel s x l r pre h1 h2 h3).2.2.2⟩

theorem claim_C8_witness :
    ((∀ val ∈ ([1, 2] : List Int), val < intMax) ∧ (1:Nat) - 0 < 2 ∧
      (0:Nat) ≤ 1 ∧ (1:Nat) ≤ 1 ∧ (0:Nat) ≤ 1 ∧ intMax ≤ intMax) ∧
    SegInv (build_recursive (fun i => (i : Int)) 2 intMax 2 (fun _ => 0)
        0 0 1)
      (fun i => if i < 2 then (i : Int) else intMax) 2 0 0 1 ∧
    SegInv (update_recursive 1 5 2 (fun _ => 1) 0 0 1)
      (Function.update (fun _ => (1 : Int)) 1 5) 2 0 0 1 ∧
    SegInv (update_recursive 1 intMax 2 (fun _ => 1) 0 0 1)
      (Function.update (fun _ => (1 : Int)) 1 intMax) 2 0 0 1 ∧
    SegInv (prefix_min_recursive (fun _ => [1, 2]) intMax false 0 2
        ⟨fun _ => 1, fun _ => 0, 0⟩ 0 0 1 intMax).t
      (readA (fun _ => [1, 2])
        (prefix_min_recursive (fun _ => [1, 2]) intMax false 0 2
          ⟨fun _ => 1, fun _ => 0, 0⟩ 0 0 1 intMax).now) 2 0 0 1 := by
  have h := claim_C8 (fun _ => ([1, 2] : List Int)) false 0 intMax 5 intMax
    (fun i => (i : Int)) (fun _ => 0) (fun _ => 1) (fun _ => 1) 2 2 0 0 1 1
    ⟨fun _ => 1, fun _ => 0, 0⟩
    (fun _ => by show ([1, 2] : List Int).Sorted (· < ·); decide)
    (fun _ => by show ∀ val ∈ ([1, 2] : List Int), val < intMax; decide)
  exact ⟨by decide, h.1 (by decide), h.2.1 (by rfl) (by decide)
    (by decide), h.2.2.1 (by rfl) (by decide) (by decide),
    h.2.2.2 (by decide) (by decide) (by rfl)⟩

/-- C6 (amended): a strictly negative granularity disables parallel
spawning in the tree build and in the prefix-min cascade (the `int`
granularity is converted to an unsigned `size_t`, so a negative value
becomes huge and `r - l > granularity` is always false for any feasible
range), but granularity 0 does NOT disable spawning — see the
counterexample. -/
theorem claim_C6 (g : Int) (hneg : g < 0) (hlow : -(2 ^ 31) ≤ g) :
    (∀ (par : Bool) fuel l r, r ≤ 2 ^ 63 →
      build_spawns par g fuel l r = 0) ∧
    (∀ (arrows : Nat → List Int) (inf : Int) (par : Bool) fuel
        (s : PMState) x l r pre, r ≤ 2 ^ 63 →
      (prefix_min_recursive arrows inf par g fuel s x l r pre).spawns =
        s.spawns) := by
  have hdp : ∀ (par : Bool) (l r : Nat), r ≤ 2 ^ 63 →
      doParallel par g l r = false := by
    intro par l r hr
    have h1 : decide (sizeTOfInt g < r - l) = false := by
      simp only [decide_eq_false_iff_not, Nat.not_lt]
      unfold sizeTOfInt
      omega
    unfold doParallel
    rw [h1, Bool.and_false]
  constructor
  · intro par fuel
    induction fuel with
    | zero => intro l r _; rfl
    | succ fuel ih =>
      intro l r hr
      simp only [build_spawns, hdp par l r hr, Bool.false_eq_true, if_false,
        Nat.zero_add]
      split_ifs with h1
      · rfl
      · rw [ih l ((l + r) / 2) (by omega), ih ((l + r) / 2 + 1) r hr]
  · intro arrows inf par fuel
    induction fuel with
    | zero => intro s x l r pre _; rfl
    | succ fuel ih =>
      intro s x l r pre hr
      simp only [prefix_min_recursive, hdp par l r hr, Bool.false_eq_true,
        if_false, Nat.add_zero]
      split_ifs with h1 h2 h3 h4
      · rfl
      · rfl
      · rw [ih _ _ _ _ _ hr, ih _ _ _ _ _ (by omega)]
      · exact ih _ _ _ _ _ hr
      · exact ih _ _ _ _ _ (by omega)

theorem claim_C6_witness :
    ((-1 : Int) < 0 ∧ -(2 ^ 31) ≤ (-1 : Int)) ∧
    build_spawns true (-1) 2 0 1 = 0 ∧
    (prefix_min_recursive (fun _ => [1, 2]) intMax true (-1) 2
      ⟨fun _ => 1, fun _ => 0, 0⟩ 0 0 1 intMax).spawns = 0 :=
  ⟨by decide, (claim_C6 (-1) (by decide) (by decide)).1 true 2 0 1
      (by decide),
    (claim_C6 (-1) (by decide) (by decide)).2 (fun _ => [1, 2]) intMax true
      2 ⟨fun _ => 1, fun _ => 0, 0⟩ 0 0 1 intMax (by decide)⟩

/-! ## LIS correctness: reference-solver lemmas -/

theorem naiveDp_eq (a : Nat → Int) (i : Nat) :
    naiveDp a i = 1 + ((List.range i).filter
      (fun j => decide (a j < a i))).foldl
      (fun acc j => max acc (naiveDp a j)) 0 := by
  rw [naiveDp]
  congr 1
  exact List.foldl_attach ((List.range i).filter (fun j => decide (a j < a i)))
    (fun acc j => max acc (naiveDp a j)) 0

theorem naiveDp_pos (a : Nat → Int) (i : Nat) : 1 ≤ naiveDp a i := by
  rw [naiveDp_eq]
  have h := foldl_max_init_le (fun j => naiveDp a j)
    ((List.range i).filter (fun j => decide (a j < a i))) 0
  omega

theorem countP_update_true (fin : Nat → Bool) (c : Nat) :
    ∀ l : List Nat, l.Nodup → c ∈ l → fin c = false →
      l.countP (fun j => Function.update fin c true j) =
        l.countP (fun j => fin j) + 1 := by
  intro l
  induction l with
  | nil => intro _ hc; cases hc
  | cons x xs ih =>
    intro hnd hc hf
    obtain ⟨hx, hnd2⟩ := List.nodup_cons.mp hnd
    rw [List.countP_cons, List.countP_cons]
    by_cases hxc : x = c
    · subst hxc
      have h1 : xs.countP (fun j => Function.update fin x true j) =
          xs.countP (fun j => fin j) := by
        apply List.countP_congr
        intro j hj
        rw [Function.update_noteq (by rintro rfl; exact hx hj)]
      rw [h1, Function.update_same, hf]
      simp
    · have hc2 : c ∈ xs := by
        rcases List.mem_cons.mp hc with h | h
        · exact absurd h.symm hxc
        · exact h
      rw [ih hnd2 hc2 hf, Function.update_noteq hxc]
      omega

theorem foldl_max_succ {α : Type} (g : α → Int) :
    ∀ (l : List α) (c : Int),
      l.foldl (fun acc j => max acc (g j + 1)) (c + 1) =
        1 + l.foldl (fun acc j => max acc (g j)) c := by
  intro l
  induction l with
  | nil => intro c; simp only [List.foldl_nil]; omega
  | cons x xs ih =>
    intro c
    show xs.foldl (fun acc j => max acc (g j + 1)) (max (c + 1) (g x + 1)) =
      1 + xs.foldl (fun acc j => max acc (g j)) (max c (g x))
    rw [max_add_add_right c (g x) 1, ih (max c (g x))]

theorem foldl_max_init_drop {α : Type} (g : α → Int) (l : List α)
    (a b : Int) (j : α) (hj : j ∈ l) (ha : a ≤ g j) (hb : b ≤ a) :
    l.foldl (fun acc x => max acc (g x)) a =
      l.foldl (fun acc x => max acc (g x)) b := by
  have h1 : max b a = a := max_eq_right hb
  have h2 := foldl_max_init_merge g l b a
  rw [h1] at h2
  have h3 := foldl_max_le_of_mem g l b hj
  rw [h2]
  exact max_eq_left (le_trans ha h3)

theorem lis_ref_inner_eq (a dp : Nat → Int) (i : Nat) :
    ∀ fuel j cur, i ≤ fuel + j →
      lis_ref_inner a dp i fuel j cur =
        ((List.range' j (i - j)).filter
          (fun j2 => decide (a j2 < a i))).foldl
          (fun acc j2 => max acc (dp j2 + 1)) cur := by
  intro fuel
  induction fuel with
  | zero =>
    intro j cur hj
    have : i - j = 0 := by omega
    rw [this]
    rfl
  | succ fuel ih =>
    intro j cur hj
    by_cases hji : j < i
    · have hrange : i - j = (i - (j + 1)) + 1 := by omega
      rw [lis_ref_inner, if_pos hji, ih (j + 1) _ (by omega), hrange,
        List.range'_succ, List.filter_cons]
      by_cases hcond : a j < a i
      · rw [if_pos hcond, if_pos (decide_eq_true hcond)]
        rfl
      · rw [if_neg hcond, if_neg (by simpa using hcond)]
    · have : i - j = 0 := by omega
      rw [lis_ref_inner, if_neg hji, this]
      rfl

theorem foldl_congr_mem {α β : Type} (f g : β → α → β) :
    ∀ (l : List α) (init : β), (∀ acc j, j ∈ l → f acc j = g acc j) →
      l.foldl f init = l.foldl g init := by
  intro l
  induction l with
  | nil => intro init _; rfl
  | cons x xs ih =>
    intro init h
    show xs.foldl f (f init x) = xs.foldl g (g init x)
    rw [h init x (List.mem_cons_self x xs)]
    exact ih _ (fun acc j hj => h acc j (List.mem_cons_of_mem x hj))

theorem lis_ref_outer_eq (a : Nat → Int) (n : Nat) :
    ∀ fuel i (dp : Nat → Int) result, n ≤ fuel + i → 1 ≤ i →
      (∀ j, j < i → dp j = naiveDp a j) → (∀ j, i ≤ j → dp j = 1) →
      lis_ref_outer a n fuel i dp result =
        (List.range' i (n - i)).foldl
          (fun acc j => max acc (naiveDp a j)) result := by
  intro fuel
  induction fuel with
  | zero =>
    intro i dp result hn _ _ _
    have : n - i = 0 := by omega
    rw [this]
    rfl
  | succ fuel ih =>
    intro i dp result hn hi hlow hhigh
    by_cases hin : i < n
    · have hdpi : lis_ref_inner a dp i i 0 (dp i) = naiveDp a i := by
        rw [lis_ref_inner_eq a dp i i 0 (dp i) (by omega)]
        rw [hhigh i (le_refl i)]
        have hshift := foldl_max_succ (fun j => naiveDp a j)
          ((List.range' 0 (i - 0)).filter (fun j2 => decide (a j2 < a i))) 0
        have hcg : ((List.range' 0 (i - 0)).filter
            (fun j2 => decide (a j2 < a i))).foldl
            (fun acc j2 => max acc (dp j2 + 1)) (0 + 1) =
          ((List.range' 0 (i - 0)).filter
            (fun j2 => decide (a j2 < a i))).foldl
            (fun acc j2 => max acc (naiveDp a j2 + 1)) (0 + 1) := by
          apply foldl_congr_mem
          intro acc j2 hj2
          have hj2b : j2 < i := by
            have := (List.mem_filter.mp hj2).1
            rw [List.mem_range'_1] at this
            omega
          rw [hlow j2 hj2b]
        have hr : List.range' 0 (i - 0) = List.range i := by
          rw [Nat.sub_zero, List.range_eq_range']
        show ((List.range' 0 (i - 0)).filter
            (fun j2 => decide (a j2 < a i))).foldl
            (fun acc j2 => max acc (dp j2 + 1)) (0 + 1) = naiveDp a i
        rw [hcg, hshift, hr, naiveDp_eq]
      rw [lis_ref_outer, if_pos hin]
      have hrange : n - i = (n - (i + 1)) + 1 := by omega
      rw [ih (i + 1) _ _ (by omega) (by omega) ?_ ?_]
      · rw [hrange, List.range'_succ]
        show _ = (List.range' (i + 1) (n - (i + 1))).foldl
          (fun acc j => max acc (naiveDp a j)) (max result (naiveDp a i))
        have hmax : (if result < lis_ref_inner a dp i i 0 (dp i) then
            lis_ref_inner a dp i i 0 (dp i) else result) =
            max result (naiveDp a i) := by
          rw [hdpi]
          split_ifs with hc
          · omega
          · omega
        rw [hmax]
      · intro j hj
        by_cases hji2 : j = i
        · subst hji2
          rw [Function.update_same, hdpi]
        · rw [Function.update_noteq hji2]
          exact hlow j (by omega)
      · intro j hj
        rw [Function.update_noteq (by omega)]
        exact hhigh j (by omega)
    · have : n - i = 0 := by omega
      rw [lis_ref_outer, if_neg hin, this]
      rfl

/-- The reference solver computes the maximum of the textbook dp values. -/
theorem lis_naive_eq (nums : List Int) :
    lis_naive nums = lisMax (fun i => nums.getD i 0) nums.length := by
  unfold lis_naive lisMax
  by_cases h1 : nums.length ≤ 1
  · interval_cases h : nums.length
    · rw [if_pos (by omega)]
      rfl
    · rw [if_pos (by omega)]
      have h0 : naiveDp (fun i => nums.getD i 0) 0 = 1 := by
        rw [naiveDp_eq]
        rfl
      show ((1 : Nat) : Int) = List.foldl
        (fun acc j => max acc (naiveDp (fun i => nums.getD i 0) j)) 0
        (List.range 1)
      rw [show List.range 1 = [0] from rfl]
      show ((1 : Nat) : Int) = max 0 (naiveDp (fun i => nums.getD i 0) 0)
      rw [h0]
      norm_num
  · rw [if_neg h1]
    set a := fun i => nums.getD i 0 with ha
    set n := nums.length with hn
    rw [lis_ref_outer_eq a n n 1 (fun _ => 1) 0 (by omega) (by omega)
      (fun j hj => by
        have : j = 0 := by omega
        subst this
        rw [naiveDp_eq]
        show (1 : Int) = 1 + List.foldl _ 0 (List.filter _ (List.range 0))
        rfl)
      (fun j _ => rfl)]
    have hsplit : List.range n = 0 :: List.range' 1 (n - 1) := by
      have h2 := List.range'_succ 0 (n - 1) 1
      rw [List.range_eq_range']
      rw [show (0 : Nat) + 1 = 1 from rfl] at h2
      rw [show (n - 1) + 1 = n by omega] at h2
      exact h2
    rw [hsplit]
    show (List.range' 1 (n - 1)).foldl (fun acc j => max acc (naiveDp a j)) 0 =
      (List.range' 1 (n - 1)).foldl (fun acc j => max acc (naiveDp a j))
        (max 0 (naiveDp a 0))
    have h0 : naiveDp a 0 = 1 := by
      rw [naiveDp_eq]
      rfl
    rw [h0]
    rw [show (max (0 : Int) 1) = 1 by omega]
    have hmem : (1 : Nat) ∈ List.range' 1 (n - 1) := by
      rw [List.mem_range'_1]
      omega
    exact (foldl_max_init_drop (fun j => naiveDp a j) (List.range' 1 (n - 1))
      1 0 1 hmem (naiveDp_pos a 1) (by omega)).symm

theorem vOf_true (a : Nat → Int) (inf : Int) (fin : Nat → Bool) (i : Nat)
    (h : fin i = true) : vOf a inf fin i = inf := by
  unfold vOf
  rw [h]
  rfl

theorem vOf_false (a : Nat → Int) (inf : Int) (fin : Nat → Bool) (i : Nat)
    (h : fin i = false) : vOf a inf fin i = a i := by
  unfold vOf
  rw [h]
  rfl

/-- Invariant proof of the LIS cordon loop: at every round the segment tree
holds the unfinalized keys, the dp array of an unfinalized state is the best
relaxation over finalized predecessors, and maxResult tracks the finalized
dp values; the loop returns the maximum textbook dp value and runs exactly
one round per element. -/
theorem lis_loop_spec (a : Nat → Int) (n : Nat)
    (HB : ∀ i, i < n → a i < intMax) :
    ∀ fuel k rounds (s : LISState), fuel + k = n →
      (List.range n).countP (fun j => s.finalized j) = k →
      SegInv s.t (vOf a intMax s.finalized) n 0 0 (n - 1) →
      (∀ i, i < n → s.finalized i = false →
        s.dp i = dpSpec a s.finalized i) →
      s.maxResult = maxSpec a s.finalized n →
      lis_loop a n intMax fuel s k rounds = (lisMax a n, rounds + fuel) := by
  intro fuel
  induction fuel with
  | zero =>
    intro k rounds s hk hcount _ _ hmax
    have hall : ∀ j ∈ List.range n, (fun j => s.finalized j) j = true := by
      apply List.countP_eq_length.mp
      rw [List.length_range]
      omega
    rw [lis_loop, hmax]
    unfold maxSpec lisMax
    rw [List.filter_eq_self.mpr hall, Nat.add_zero]
  | succ fuel ih =>
    intro k rounds s hk hcount hinv hdp hmax
    have hkn : k < n := by omega
    have hn1 : 1 ≤ n := by omega
    set c := find_min_index s.t n with hcdef
    obtain ⟨hc1, hc2, hc3, hc4⟩ := find_min_spec n s.t
      (vOf a intMax s.finalized) 0 0 (n - 1) hinv (by omega)
    have hcc : find_min_loop s.t n 0 0 (n - 1) = c := rfl
    rw [hcc] at hc1 hc2 hc3 hc4
    have hex : ∃ i0, i0 < n ∧ s.finalized i0 = false := by
      by_contra hno
      push_neg at hno
      have hfull : (List.range n).countP (fun j => s.finalized j) =
          (List.range n).length := by
        apply List.countP_eq_length.mpr
        intro j hj
        rcases Bool.eq_false_or_eq_true (s.finalized j) with h | h
        · exact h
        · exact absurd h (hno j (List.mem_range.mp hj))
      rw [List.length_range] at hfull
      omega
    obtain ⟨i0, hi0n, hi0f⟩ := hex
    have hcfin : s.finalized c = false := by
      rcases Bool.eq_false_or_eq_true (s.finalized c) with h | h
      · exfalso
        have hvc := vOf_true a intMax s.finalized c h
        have hle0 : s.t 0 ≤ vOf a intMax s.finalized i0 :=
          seginv_le hinv i0 (by omega) (by omega)
        have hvi0 := vOf_false a intMax s.finalized i0 hi0f
        have hbi0 := HB i0 hi0n
        rw [hvc] at hc3
        rw [hvi0] at hle0
        omega
      · exact h
    have hvc := vOf_false a intMax s.finalized c hcfin
    rw [hvc] at hc3
    have horder : ∀ j, j < c → a j ≤ a c → s.finalized j = true := by
      intro j hj haj
      rcases Bool.eq_false_or_eq_true (s.finalized j) with h | h
      · exact h
      · exfalso
        have hvj := vOf_false a intMax s.finalized j h
        have := hc4 j (by omega) hj
        rw [hvj] at this
        omega
    have hdpc : s.dp c = naiveDp a c := by
      rw [hdp c (by omega) hcfin]
      unfold dpSpec
      rw [naiveDp_eq]
      have hfeq : (List.range c).filter
          (fun j => s.finalized j && decide (a j < a c)) =
          (List.range c).filter (fun j => decide (a j < a c)) := by
        apply List.filter_congr
        intro j hj
        rw [List.mem_range] at hj
        by_cases hac : a j < a c
        · rw [horder j hj (le_of_lt hac), decide_eq_true hac]
          rfl
        · rw [decide_eq_false hac, Bool.and_false]
      rw [hfeq]
    rw [lis_loop, if_pos hkn]
    have hA : (List.range n).countP
        (fun j => (lis_round a n intMax s).finalized j) = k + 1 := by
      show (List.range n).countP
        (fun j => Function.update s.finalized c true j) = k + 1
      rw [countP_update_true s.finalized c (List.range n)
        (List.nodup_range n) (List.mem_range.mpr (by omega)) hcfin, hcount]
    have hB : SegInv (lis_round a n intMax s).t
        (vOf a intMax (lis_round a n intMax s).finalized) n 0 0 (n - 1) := by
      show SegInv (update_recursive c intMax n s.t 0 0 (n - 1))
        (vOf a intMax (Function.update s.finalized c true)) n 0 0 (n - 1)
      have hup := update_seginv c intMax n s.t
        (vOf a intMax s.finalized) 0 0 (n - 1) hinv (by omega) (by omega)
      refine seginv_congr_v (by omega) ?_ hup
      intro i _ _
      by_cases hic : i = c
      · rw [hic, Function.update_same,
          vOf_true a intMax _ c (Function.update_same c true s.finalized)]
      · rw [Function.update_noteq hic]
        rcases Bool.eq_false_or_eq_true (s.finalized i) with h | h
        · rw [vOf_true a intMax s.finalized i h,
            vOf_true a intMax _ i (by rw [Function.update_noteq hic]; exact h)]
        · rw [vOf_false a intMax s.finalized i h,
            vOf_false a intMax _ i (by rw [Function.update_noteq hic]; exact h)]
    have hC : ∀ i, i < n → (lis_round a n intMax s).finalized i = false →
        (lis_round a n intMax s).dp i =
          dpSpec a (lis_round a n intMax s).finalized i := by
      intro i hin hfin2i
      have hfin2i2 : Function.update s.finalized c true i = false := hfin2i
      have hic : i ≠ c := by
        intro he
        rw [he, Function.update_same] at hfin2i2
        cases hfin2i2
      have hfini : s.finalized i = false := by
        rw [Function.update_noteq hic] at hfin2i2
        exact hfin2i2
      show (if c < i ∧ i < n ∧ s.finalized i = false ∧ a c < a i
          then max (s.dp i) (s.dp c + 1) else s.dp i) =
        dpSpec a (Function.update s.finalized c true) i
      by_cases hcond : c < i ∧ i < n ∧ s.finalized i = false ∧ a c < a i
      · rw [if_pos hcond, hdp i hin hfini, hdpc]
        unfold dpSpec
        have hfc : (List.range i).filter
            (fun j => Function.update s.finalized c true j &&
              decide (a j < a i)) =
            (List.range i).filter
              (fun j => (s.finalized j && decide (a j < a i)) ||
                (j == c)) := by
          apply List.filter_congr
          intro j _
          by_cases hjc : j = c
          · rw [hjc, Function.update_same, decide_eq_true hcond.2.2.2,
              beq_self_eq_true, Bool.or_true]
            rfl
          · rw [Function.update_noteq hjc,
              beq_eq_false_iff_ne.mpr hjc, Bool.or_false]
        have hins : ((List.range i).filter
            (fun j => (s.finalized j && decide (a j < a i)) ||
              (j == c))).foldl (fun acc j => max acc (naiveDp a j)) 0 =
            max (((List.range i).filter
              (fun j => s.finalized j && decide (a j < a i))).foldl
              (fun acc j => max acc (naiveDp a j)) 0) (naiveDp a c) :=
          foldl_max_filter_insert (fun j => naiveDp a j)
            (fun j => s.finalized j && decide (a j < a i)) c (List.range i)
            0 (List.mem_range.mpr hcond.1) (List.nodup_range i)
        rw [hfc, hins]
        omega
      · rw [if_neg hcond, hdp i hin hfini]
        unfold dpSpec
        have hfc : (List.range i).filter
            (fun j => Function.update s.finalized c true j &&
              decide (a j < a i)) =
            (List.range i).filter
              (fun j => s.finalized j && decide (a j < a i)) := by
          apply List.filter_congr
          intro j hj
          rw [List.mem_range] at hj
          by_cases hjc : j = c
          · have hnac : ¬ (a c < a i) := fun hac =>
              hcond ⟨hjc ▸ hj, hin, hfini, hac⟩
            rw [hjc, decide_eq_false hnac, Bool.and_false, Bool.and_false]
          · rw [Function.update_noteq hjc]
        rw [hfc]
    have hD : (lis_round a n intMax s).maxResult =
        maxSpec a (lis_round a n intMax s).finalized n := by
      show max s.maxResult
          (if c < c ∧ c < n ∧ s.finalized c = false ∧ a c < a c
            then max (s.dp c) (s.dp c + 1) else s.dp c) =
        maxSpec a (Function.update s.finalized c true) n
      rw [if_neg (fun h => lt_irrefl c h.1), hmax, hdpc]
      unfold maxSpec
      have hfc : (List.range n).filter
          (fun j => Function.update s.finalized c true j) =
          (List.range n).filter (fun j => s.finalized j || (j == c)) := by
        apply List.filter_congr
        intro j _
        by_cases hjc : j = c
        · rw [hjc, Function.update_same, beq_self_eq_true, Bool.or_true]
        · rw [Function.update_noteq hjc,
            beq_eq_false_iff_ne.mpr hjc, Bool.or_false]
      have hins : ((List.range n).filter
          (fun j => s.finalized j || (j == c))).foldl
          (fun acc j => max acc (naiveDp a j)) 0 =
          max (((List.range n).filter (fun j => s.finalized j)).foldl
            (fun acc j => max acc (naiveDp a j)) 0) (naiveDp a c) :=
        foldl_max_filter_insert (fun j => naiveDp a j)
          (fun j => s.finalized j) c (List.range n) 0
          (List.mem_range.mpr (by omega)) (List.nodup_range n)
      rw [hfc, hins]
    rw [ih (k + 1) (rounds + 1) (lis_round a n intMax s) (by omega)
      hA hB hC hD]
    rw [show rounds + 1 + fuel = rounds + (fuel + 1) by omega]

/-- C1 (amended): for every input sequence whose elements are strictly
below the sentinel numeric-limits max, the cordon-scheduler LIS solver
returns the naive O(n^2) reference LIS length.  (When an element equals
the sentinel the solver miscounts — see the counterexample.) -/
theorem claim_C1 (data : List Int) (par : Bool) (g : Int)
    (HB : ∀ x ∈ data, x < intMax) :
    lis_compute data par g intMax = lis_naive data := by
  unfold lis_compute lis_compute_rounds
  by_cases hn : data.length = 0
  · rw [if_pos hn]
    have hnil : data = [] := List.length_eq_zero.mp hn
    subst hnil
    rfl
  · rw [if_neg hn]
    have HB2 : ∀ i, i < data.length → data.getD i 0 < intMax :=
      fun i hi => HB _ (getD_mem_of_lt data i hi)
    have hcnt : (List.range data.length).countP
        (fun j => (fun _ : Nat => false) j) = 0 := by
      simp
    have hinv : SegInv
        (build_recursive (fun i => data.getD i 0) data.length intMax
          data.length (fun _ => intMax) 0 0 (data.length - 1))
        (vOf (fun i => data.getD i 0) intMax (fun _ => false))
        data.length 0 0 (data.length - 1) := by
      refine seginv_congr_v (by omega) ?_
        (build_seginv (fun i => data.getD i 0) data.length intMax
          data.length (fun _ => intMax) 0 0 (data.length - 1) (by omega))
      intro i _ hi
      rw [if_pos (by omega : i < data.length)]
      rfl
    have hdp : ∀ i, i < data.length → (fun _ : Nat => false) i = false →
        (fun _ : Nat => (1 : Int)) i =
          dpSpec (fun i => data.getD i 0) (fun _ => false) i := by
      intro i _ _
      unfold dpSpec
      simp
    have hmax : (0 : Int) =
        maxSpec (fun i => data.getD i 0) (fun _ => false) data.length := by
      unfold maxSpec
      simp
    have hloop := lis_loop_spec (fun i => data.getD i 0) data.length HB2
      data.length 0 0
      { dp := fun _ => 1, finalized := fun _ => false,
        t := build_recursive (fun i => data.getD i 0) data.length intMax
          data.length (fun _ => intMax) 0 0 (data.length - 1),
        maxResult := 0 }
      (by omega) hcnt hinv hdp hmax
    rw [hloop, lis_naive_eq]

theorem claim_C1_witness :
    (∀ x ∈ ([10, 22, 9, 33, 21, 50, 41, 60, 80] : List Int), x < intMax) ∧
    lis_compute [10, 22, 9, 33, 21, 50, 41, 60, 80] false 0 intMax =
      lis_naive [10, 22, 9, 33, 21, 50, 41, 60, 80] ∧
    lis_compute [10, 22, 9, 33, 21, 50, 41, 60, 80] false 0 intMax = 6 :=
  ⟨by decide, claim_C1 [10, 22, 9, 33, 21, 50, 41, 60, 80] false 0
    (by decide), by decide⟩

/-! ## LCS correctness: chain-rank machinery -/

theorem foldl_maxN_init_le {α : Type} (g : α → Nat) (l : List α)
    (acc : Nat) : acc ≤ l.foldl (fun a j => max a (g j)) acc := by
  induction l generalizing acc with
  | nil => exact le_refl acc
  | cons x xs ih =>
    exact le_trans (le_max_left acc (g x)) (ih (max acc (g x)))

theorem foldl_maxN_le_of_mem {α : Type} (g : α → Nat) (l : List α)
    (acc : Nat) {j : α} (hj : j ∈ l) :
    g j ≤ l.foldl (fun a j => max a (g j)) acc := by
  induction l generalizing acc with
  | nil => cases hj
  | cons x xs ih =>
    rcases List.mem_cons.mp hj with h | h
    · subst h
      exact le_trans (le_max_right acc (g j)) (foldl_maxN_init_le g xs _)
    · exact ih (max acc (g x)) h

theorem foldl_maxN_le {α : Type} (g : α → Nat) (l : List α) (acc b : Nat)
    (hacc : acc ≤ b) (hl : ∀ j ∈ l, g j ≤ b) :
    l.foldl (fun a j => max a (g j)) acc ≤ b := by
  induction l generalizing acc with
  | nil => exact hacc
  | cons x xs ih =>
    exact ih (max acc (g x))
      (max_le hacc (hl x (List.mem_cons_self x xs)))
      (fun j hj => hl j (List.mem_cons_of_mem x hj))

theorem foldl_maxN_attained {α : Type} (g : α → Nat) (l : List α)
    (acc : Nat) :
    l.foldl (fun a j => max a (g j)) acc = acc ∨
      ∃ j ∈ l, l.foldl (fun a j => max a (g j)) acc = g j := by
  induction l generalizing acc with
  | nil => exact Or.inl rfl
  | cons x xs ih =>
    rcases ih (max acc (g x)) with h | ⟨j, hj, hjeq⟩
    · simp only [List.foldl_cons]
      rcases max_choice acc (g x) with h2 | h2
      · exact Or.inl (by rw [h, h2])
      · exact Or.inr ⟨x, List.mem_cons_self x xs, by rw [h, h2]⟩
    · exact Or.inr ⟨j, List.mem_cons_of_mem x hj, by
        simp only [List.foldl_cons]
        exact hjeq⟩

theorem chainMax_mono_i (arrows : Nat → List Int) (c : Int) :
    ∀ d i, chainMax arrows i c ≤ chainMax arrows (i + d) c := by
  intro d
  induction d with
  | zero => intro i; exact le_refl _
  | succ d ih =>
    intro i
    have h2 : chainMax arrows (i + d) c ≤ chainMax arrows (i + d + 1) c :=
      le_max_left _ _
    exact le_trans (ih i) h2

theorem chainMax_mono_c (arrows : Nat → List Int) :
    ∀ i (c1 c2 : Int), c1 ≤ c2 →
      chainMax arrows i c1 ≤ chainMax arrows i c2 := by
  intro i
  induction i with
  | zero => intro c1 c2 _; exact le_refl 0
  | succ i ih =>
    intro c1 c2 hc
    apply max_le_max (ih c1 c2 hc)
    apply foldl_maxN_le
    · exact foldl_maxN_init_le _ _ 0
    · intro j hj
      have hj2 : j ∈ (arrows i).filter (fun v => decide (v < c2)) := by
        rw [List.mem_filter] at hj ⊢
        refine ⟨hj.1, ?_⟩
        have := of_decide_eq_true hj.2
        exact decide_eq_true (by omega)
      exact foldl_maxN_le_of_mem (fun j => 1 + chainMax arrows i j) _ 0 hj2

theorem chainMax_ext (arrows : Nat → List Int) {i1 i : Nat} {j1 c : Int}
    (hi : i1 < i) (hj : j1 ∈ arrows i1) (hjc : j1 < c) :
    1 + chainMax arrows i1 j1 ≤ chainMax arrows i c := by
  have h1 : 1 + chainMax arrows i1 j1 ≤ chainMax arrows (i1 + 1) c := by
    apply le_trans ?_ (le_max_right (chainMax arrows i1 c) _)
    apply foldl_maxN_le_of_mem (fun j => 1 + chainMax arrows i1 j)
    rw [List.mem_filter]
    exact ⟨hj, decide_eq_true hjc⟩
  have h2 := chainMax_mono_i arrows c (i - (i1 + 1)) (i1 + 1)
  rw [show i1 + 1 + (i - (i1 + 1)) = i by omega] at h2
  exact le_trans h1 h2

theorem chainMax_succ_ex (arrows : Nat → List Int) :
    ∀ i (c : Int) (s : Nat), s + 1 ≤ chainMax arrows i c →
      ∃ i1, i1 < i ∧ ∃ j1 ∈ arrows i1, j1 < c ∧
        s ≤ chainMax arrows i1 j1 := by
  intro i
  induction i with
  | zero => intro c s h; simp [chainMax] at h
  | succ i ih =>
    intro c s h
    rcases le_max_iff.mp h with h2 | h2
    · obtain ⟨i1, hi1, j1, hj1, hjc, hs⟩ := ih c s h2
      exact ⟨i1, by omega, j1, hj1, hjc, hs⟩
    · rcases foldl_maxN_attained (fun j => 1 + chainMax arrows i j)
        ((arrows i).filter (fun v => decide (v < c))) 0 with h3 | ⟨j, hj, h3⟩
      · omega
      · rw [h3] at h2
        rw [List.mem_filter] at hj
        exact ⟨i, by omega, j, hj.1, of_decide_eq_true hj.2, by omega⟩

theorem chainMax_le_i (arrows : Nat → List Int) :
    ∀ i (c : Int), chainMax arrows i c ≤ i := by
  intro i
  induction i with
  | zero => intro c; exact le_refl 0
  | succ i ih =>
    intro c
    apply max_le (le_trans (ih c) (by omega))
    apply foldl_maxN_le
    · omega
    · intro j _
      have := ih j
      omega

theorem sorted_getD_le (l : List Int) (hs : l.Sorted (· < ·)) (i1 i2 : Nat)
    (h : i1 ≤ i2) (h2 : i2 < l.length) : l.getD i1 0 ≤ l.getD i2 0 := by
  rcases Nat.lt_or_ge i1 i2 with hlt | hge
  · have := (List.pairwise_iff_getElem.mp hs) i1 i2 (by omega) h2 hlt
    rw [getD_eq_elem l i1 (by omega), getD_eq_elem l i2 h2]
    omega
  · have hi : i1 = i2 := by omega
    rw [hi]

/-- For a strictly sorted list and a downward-closed predicate, the count
of satisfying elements marks the boundary: the element at index idx
satisfies p exactly when idx is below the count. -/
theorem countP_mono_char (p : Int → Bool) :
    ∀ (l : List Int), l.Sorted (· < ·) →
      (∀ x y : Int, x ≤ y → p y = true → p x = true) →
      ∀ idx, idx < l.length →
        (p (l.getD idx 0) = true ↔ idx < l.countP p) := by
  intro l
  induction l with
  | nil => intro _ _ idx h; simp at h
  | cons y ys ih =>
    intro hs hmono idx hidx
    obtain ⟨hy, hs2⟩ := List.sorted_cons.mp hs
    rw [List.countP_cons]
    match idx with
    | 0 =>
      rw [List.getD_cons_zero]
      by_cases hp : p y = true
      · rw [hp, if_pos rfl]
        simp only [hp, true_iff]
        omega
      · have hys : ys.countP p = 0 := by
          rw [List.countP_eq_zero]
          intro v hv hpv
          exact hp (hmono y v (le_of_lt (hy v hv)) hpv)
        rw [hys, if_neg hp]
        simp [hp]
    | idx + 1 =>
      rw [List.getD_cons_succ]
      have hidx2 : idx < ys.length := by
        rw [List.length_cons] at hidx
        omega
      rw [ih hs2 hmono idx hidx2]
      by_cases hp : p y = true
      · rw [if_pos hp]
        omega
      · have hys : ys.countP p = 0 := by
          rw [List.countP_eq_zero]
          intro v hv hpv
          exact hp (hmono y v (le_of_lt (hy v hv)) hpv)
        rw [hys, if_neg hp]
        omega

theorem countP_eq_takeWhile_length (p : Int → Bool) :
    ∀ (l : List Int), l.Sorted (· < ·) →
      (∀ x y : Int, x ≤ y → p y = true → p x = true) →
      l.countP p = (l.takeWhile p).length := by
  intro l
  induction l with
  | nil => intro _ _; rfl
  | cons y ys ih =>
    intro hs hmono
    obtain ⟨hy, hs2⟩ := List.sorted_cons.mp hs
    rw [List.countP_cons, List.takeWhile_cons]
    by_cases hp : p y = true
    · rw [if_pos hp, hp]
      simp only [if_true, List.length_cons]
      rw [ih hs2 hmono]
    · have hys : ys.countP p = 0 := by
        rw [List.countP_eq_zero]
        intro v hv hpv
        exact hp (hmono y v (le_of_lt (hy v hv)) hpv)
      rw [if_neg hp, hys]
      have hpf : p y = false := by
        rcases Bool.eq_false_or_eq_true (p y) with h | h
        · exact absurd h hp
        · exact h
      rw [hpf]
      rfl

/-- Index characterisation of the rank count: the element at index idx of
a (sorted) row has rank at most k exactly when idx is below cntRank. -/
theorem rank_char (arrows : Nat → List Int)
    (HS : ∀ i, (arrows i).Sorted (· < ·)) (i k idx : Nat)
    (hidx : idx < (arrows i).length) :
    (rank arrows i ((arrows i).getD idx 0) ≤ k ↔
      idx < cntRank arrows i k) := by
  have h := countP_mono_char (fun v => decide (rank arrows i v ≤ k))
    (arrows i) (HS i) ?_ idx hidx
  · unfold cntRank
    rw [← h]
    exact decide_eq_true_iff.symm
  · intro x y hxy hy
    have hy2 := of_decide_eq_true hy
    apply decide_eq_true
    unfold rank at hy2 ⊢
    have := chainMax_mono_c arrows i x y hxy
    omega

theorem cntRank_le_length (arrows : Nat → List Int) (i k : Nat) :
    cntRank arrows i k ≤ (arrows i).length :=
  List.countP_le_length _

theorem cntRank_mono_k (arrows : Nat → List Int) (i k : Nat) :
    cntRank arrows i k ≤ cntRank arrows i (k + 1) := by
  apply List.countP_mono_left
  intro v _ hv
  have := of_decide_eq_true hv
  unfold rank at this ⊢
  apply decide_eq_true
  omega

theorem cntRank_lt_of_ex (arrows : Nat → List Int) (i k : Nat) {v : Int}
    (hv : v ∈ arrows i) (hvk : k < rank arrows i v) :
    cntRank arrows i k < (arrows i).length := by
  rcases Nat.lt_or_ge (cntRank arrows i k) ((arrows i).length) with h | h
  · exact h
  · exfalso
    have heq : cntRank arrows i k = (arrows i).length :=
      le_antisymm (cntRank_le_length arrows i k) h
    have hall := List.countP_eq_length.mp heq
    have := of_decide_eq_true (hall v hv)
    omega

/-- The tree key of a row whose cursor sits at the model position and which
still has elements of rank above k: it is the first such element, every
element of larger rank is at least it, and its own rank exceeds k. -/
theorem readA_model_lt (arrows : Nat → List Int)
    (HS : ∀ i, (arrows i).Sorted (· < ·)) (now : Nat → Nat) (i k : Nat)
    (hnow : now i = cntRank arrows i k)
    (hlt : cntRank arrows i k < (arrows i).length) :
    readA arrows now i = (arrows i).getD (cntRank arrows i k) 0 ∧
    k < rank arrows i (readA arrows now i) ∧
    ∀ v ∈ arrows i, k < rank arrows i v → readA arrows now i ≤ v := by
  have hra : readA arrows now i = (arrows i).getD (cntRank arrows i k) 0 := by
    unfold readA
    rw [hnow, if_neg (by omega)]
  refine ⟨hra, ?_, ?_⟩
  · rw [hra]
    by_contra hcon
    push_neg at hcon
    have := (rank_char arrows HS i k (cntRank arrows i k) hlt).mp hcon
    omega
  · intro v hv hvk
    rw [hra]
    obtain ⟨idx, hidx, hveq⟩ := List.mem_iff_getElem.mp hv
    have hveq2 : (arrows i).getD idx 0 = v := by
      rw [getD_eq_elem (arrows i) idx hidx]
      exact hveq
    have hge : cntRank arrows i k ≤ idx := by
      by_contra hltidx
      push_neg at hltidx
      have := (rank_char arrows HS i k idx hidx).mpr hltidx
      rw [hveq2] at this
      omega
    calc (arrows i).getD (cntRank arrows i k) 0
        ≤ (arrows i).getD idx 0 := sorted_getD_le _ (HS i) _ _ hge hidx
      _ = v := hveq2

theorem readA_model_full (arrows : Nat → List Int) (now : Nat → Nat)
    (i k : Nat) (hnow : now i = cntRank arrows i k)
    (hfull : cntRank arrows i k = (arrows i).length) :
    readA arrows now i = intMax := by
  unfold readA
  rw [hnow, if_pos (by omega)]

/-- One round of the cascade model advances every cursor from the rank-k
count to the rank-(k+1) count. -/
theorem modelStep (arrows : Nat → List Int)
    (HS : ∀ i, (arrows i).Sorted (· < ·))
    (HB : ∀ i, ∀ v ∈ arrows i, v < intMax)
    (now : Nat → Nat) (k i : Nat)
    (hnow : ∀ i1, i1 < i → now i1 = cntRank arrows i1 k) :
    cntLE arrows i (thresh arrows now intMax 0 i) =
      cntRank arrows i (k + 1) := by
  have h1 : cntLE arrows i (thresh arrows now intMax 0 i) =
      (arrows i).countP
        (fun v => decide (v ≤ thresh arrows now intMax 0 i)) := by
    unfold cntLE
    rw [countP_eq_takeWhile_length _ _ (HS i) ?_]
    intro x y hxy hy
    have := of_decide_eq_true hy
    exact decide_eq_true (by omega)
  rw [h1]
  unfold cntRank
  apply List.countP_congr
  intro v hv
  simp only [decide_eq_true_iff]
  constructor
  · intro hle
    by_contra hr
    push_neg at hr
    have hchain : k + 1 ≤ chainMax arrows i v := by
      unfold rank at hr
      omega
    obtain ⟨i1, hi1, j1, hj1, hj1v, hcm⟩ :=
      chainMax_succ_ex arrows i v k hchain
    have hrank1 : k < rank arrows i1 j1 := by
      unfold rank
      omega
    have hlt1 := cntRank_lt_of_ex arrows i1 k hj1 hrank1
    obtain ⟨hra, _, hmin⟩ := readA_model_lt arrows HS now i1 k
      (hnow i1 hi1) hlt1
    have hminj := hmin j1 hj1 hrank1
    have hthr : thresh arrows now intMax 0 i ≤ readA arrows now i1 := by
      unfold thresh
      apply foldl_min_le_of_mem
      rw [List.mem_range'_1]
      omega
    omega
  · intro hle
    unfold thresh
    apply le_foldl_min
    · have := HB i v hv
      omega
    · intro i1 hi1mem
      rw [List.mem_range'_1] at hi1mem
      have hi1 : i1 < i := by omega
      rcases Nat.lt_or_ge (cntRank arrows i1 k) ((arrows i1).length)
        with hclt | hcge
      · obtain ⟨hra, hrank, _⟩ := readA_model_lt arrows HS now i1 k
          (hnow i1 hi1) hclt
        by_contra hcon
        push_neg at hcon
        have hmem : readA arrows now i1 ∈ arrows i1 := by
          rw [hra]
          exact getD_mem_of_lt _ _ hclt
        have hext := chainMax_ext arrows hi1 hmem hcon
        unfold rank at hrank hle
        omega
      · have heq : cntRank arrows i1 k = (arrows i1).length :=
          le_antisymm (cntRank_le_length arrows i1 k) hcge
        rw [readA_model_full arrows now i1 k (hnow i1 hi1) heq]
        have := HB i v hv
        omega

theorem cntRank_full_of_le (arrows : Nat → List Int)
    (HB : ∀ i, ∀ v ∈ arrows i, v < intMax) (n k i : Nat) (hi : i < n)
    (hk : chainMax arrows n intMax ≤ k) :
    cntRank arrows i k = (arrows i).length := by
  apply List.countP_eq_length.mpr
  intro v hv
  apply decide_eq_true
  have hext := chainMax_ext arrows hi hv (HB i v hv)
  unfold rank
  omega

theorem cntRank_ex_of_lt (arrows : Nat → List Int) (n k : Nat)
    (hk : k < chainMax arrows n intMax) :
    ∃ i, i < n ∧ cntRank arrows i k < (arrows i).length := by
  obtain ⟨i1, hi1, j1, hj1, _, hcm⟩ := chainMax_succ_ex arrows n intMax
    (chainMax arrows n intMax - 1) (by omega)
  refine ⟨i1, hi1, cntRank_lt_of_ex arrows i1 k hj1 ?_⟩
  unfold rank
  omega

/-- The cascade round loop of LCS::compute_arrows runs exactly once per
unit of chain length: starting from the rank-k model state it returns the
round counter advanced by chainMax − k. -/
theorem lcs_loop_spec (arrows : Nat → List Int)
    (HS : ∀ i, (arrows i).Sorted (· < ·))
    (HB : ∀ i, ∀ v ∈ arrows i, v < intMax)
    (n : Nat) (hn : 1 ≤ n) (par : Bool) (g : Int) :
    ∀ fuel k round (s : PMState),
      chainMax arrows n intMax ≤ k + fuel →
      (∀ i, i < n → s.now i = cntRank arrows i k) →
      SegInv s.t (readA arrows s.now) n 0 0 (n - 1) →
      (lcs_loop arrows intMax par g n fuel s round).1 =
        round + (chainMax arrows n intMax - k) := by
  intro fuel
  induction fuel with
  | zero =>
    intro k round s hfuel _ _
    show round = round + (chainMax arrows n intMax - k)
    omega
  | succ fuel ih =>
    intro k round s hfuel hnow hinv
    by_cases hk : chainMax arrows n intMax ≤ k
    · have hg : ¬ (s.t 0 < intMax) := by
        obtain ⟨i1, hi1a, hi1b, hieq⟩ := seginv_attained hinv (by omega)
        have hfull := cntRank_full_of_le arrows HB n k i1 (by omega) hk
        have hra := readA_model_full arrows s.now i1 k
          (hnow i1 (by omega)) hfull
        rw [hra] at hieq
        omega
      rw [lcs_loop, if_neg hg]
      show round = round + (chainMax arrows n intMax - k)
      omega
    · push_neg at hk
      have hg : s.t 0 < intMax := by
        obtain ⟨i1, hi1n, hi1lt⟩ := cntRank_ex_of_lt arrows n k hk
        have hle := seginv_le hinv i1 (by omega) (by omega)
        obtain ⟨hra, _, _⟩ := readA_model_lt arrows HS s.now i1 k
          (hnow i1 hi1n) hi1lt
        have hmem : readA arrows s.now i1 ∈ arrows i1 := by
          rw [hra]
          exact getD_mem_of_lt _ _ hi1lt
        have := HB i1 _ hmem
        omega
      rw [lcs_loop, if_pos hg]
      obtain ⟨A, B, C, D⟩ := prefix_min_spec arrows par g HS HB n s 0 0
        (n - 1) intMax (by omega) (le_refl intMax) hinv
      have hnow2 : ∀ i, i < n →
          (prefix_min_recursive arrows intMax par g n s 0 0 (n - 1)
            intMax).now i = cntRank arrows i (k + 1) := by
        intro i hi
        rw [C i (by omega) (by omega)]
        have hstep := modelStep arrows HS HB s.now k i
          (fun i1 hi1 => hnow i1 (by omega))
        rw [hstep, hnow i hi]
        exact max_eq_right (cntRank_mono_k arrows i k)
      rw [ih (k + 1) (round + 1)
        (prefix_min_recursive arrows intMax par g n s 0 0 (n - 1) intMax)
        (by omega) hnow2 D]
      omega

/-- LCS::compute_arrows returns the length of the longest chain of
matches. -/
theorem lcs_compute_arrows_spec (arrows : Nat → List Int)
    (HS : ∀ i, (arrows i).Sorted (· < ·))
    (HB : ∀ i, ∀ v ∈ arrows i, v < intMax)
    (n loopFuel : Nat) (hn : 1 ≤ n)
    (hfuel : chainMax arrows n intMax ≤ loopFuel) (par : Bool) (g : Int) :
    lcs_compute_arrows arrows n loopFuel par g =
      chainMax arrows n intMax := by
  have hnow0 : ∀ i, i < n → (fun _ : Nat => 0) i = cntRank arrows i 0 := by
    intro i _
    have h0 : cntRank arrows i 0 = 0 := by
      apply List.countP_eq_zero.mpr
      intro v _ hv
      have := of_decide_eq_true hv
      unfold rank at this
      omega
    rw [h0]
  have hinv0 : SegInv
      (build_recursive (fun i => readA arrows (fun _ => 0) i) n intMax n
        (fun _ => intMax) 0 0 (n - 1))
      (readA arrows (fun _ => 0)) n 0 0 (n - 1) := by
    refine seginv_congr_v (by omega) ?_
      (build_seginv (fun i => readA arrows (fun _ => 0) i) n intMax n
        (fun _ => intMax) 0 0 (n - 1) (by omega))
    intro i _ hi
    rw [if_pos (by omega : i < n)]
  show (lcs_loop arrows intMax par g n loopFuel
    { t := build_recursive (fun i => readA arrows (fun _ => 0) i) n intMax
        n (fun _ => intMax) 0 0 (n - 1),
      now := fun _ => 0, spawns := 0 } 0).1 = chainMax arrows n intMax
  rw [lcs_loop_spec arrows HS HB n hn par g loopFuel 0 0 _ (by omega)
    hnow0 hinv0]
  omega

theorem chainMax_top_congr (arrows : Nat → List Int) (c1 c2 : Int)
    (h1 : ∀ i1, ∀ v ∈ arrows i1, v < c1)
    (h2 : ∀ i1, ∀ v ∈ arrows i1, v < c2) :
    ∀ i, chainMax arrows i c1 = chainMax arrows i c2 := by
  intro i
  induction i with
  | zero => rfl
  | succ i ih =>
    show max (chainMax arrows i c1) _ = max (chainMax arrows i c2) _
    rw [ih]
    congr 1
    have hf1 : (arrows i).filter (fun v => decide (v < c1)) = arrows i := by
      apply List.filter_eq_self.mpr
      intro v hv
      exact decide_eq_true (h1 i v hv)
    have hf2 : (arrows i).filter (fun v => decide (v < c2)) = arrows i := by
      apply List.filter_eq_self.mpr
      intro v hv
      exact decide_eq_true (h2 i v hv)
    rw [hf1, hf2]

theorem Ldp_zero_left (a b : Nat → Int) (j : Nat) : Ldp a b 0 j = 0 := by
  simp [Ldp]

theorem Ldp_zero_right (a b : Nat → Int) (i : Nat) : Ldp a b i 0 = 0 := by
  match i with
  | 0 => simp [Ldp]
  | i + 1 => simp [Ldp]

theorem Ldp_succ_succ (a b : Nat → Int) (i j : Nat) :
    Ldp a b (i + 1) (j + 1) =
      if a i = b j then Ldp a b i j + 1
      else max (Ldp a b (i + 1) j) (Ldp a b i (j + 1)) := by
  simp [Ldp]

/-- Column Lipschitz bound together with row monotonicity, proved jointly
by induction on the row index. -/
theorem Ldp_lipc_monor (a b : Nat → Int) :
    ∀ i, (∀ j, Ldp a b i (j + 1) ≤ Ldp a b i j + 1) ∧
      (∀ j, Ldp a b i j ≤ Ldp a b (i + 1) j) := by
  intro i
  induction i with
  | zero =>
    constructor
    · intro j
      rw [Ldp_zero_left, Ldp_zero_left]
      omega
    · intro j
      rw [Ldp_zero_left]
      omega
  | succ i ih =>
    obtain ⟨ihP, ihQ⟩ := ih
    have hP : ∀ j, Ldp a b (i + 1) (j + 1) ≤ Ldp a b (i + 1) j + 1 := by
      intro j
      rw [Ldp_succ_succ]
      split_ifs with hm
      · exact Nat.add_le_add_right (ihQ j) 1
      · apply max_le
        · omega
        · exact le_trans (ihP j) (Nat.add_le_add_right (ihQ j) 1)
    refine ⟨hP, ?_⟩
    intro j
    match j with
    | 0 =>
      rw [Ldp_zero_right, Ldp_zero_right]
    | j + 1 =>
      rw [Ldp_succ_succ a b (i + 1) j]
      split_ifs with hm
      · exact hP j
      · exact le_max_right _ _

/-- Column monotonicity together with the row Lipschitz bound, proved
jointly by induction on the row index. -/
theorem Ldp_monoc_lipr (a b : Nat → Int) :
    ∀ i, (∀ j, Ldp a b i j ≤ Ldp a b i (j + 1)) ∧
      (∀ j, Ldp a b (i + 1) j ≤ Ldp a b i j + 1) := by
  intro i
  induction i with
  | zero =>
    have hR : ∀ j, Ldp a b 0 j ≤ Ldp a b 0 (j + 1) := by
      intro j
      rw [Ldp_zero_left, Ldp_zero_left]
    refine ⟨hR, ?_⟩
    intro j
    induction j with
    | zero => rw [Ldp_zero_right]; omega
    | succ j ihj =>
      rw [Ldp_succ_succ, Ldp_zero_left]
      split_ifs with hm
      · rw [Ldp_zero_left]
      · apply max_le
        · rw [Ldp_zero_left] at ihj
          omega
        · rw [Ldp_zero_left]
          omega
  | succ i ih =>
    obtain ⟨ihR, ihS⟩ := ih
    have hR : ∀ j, Ldp a b (i + 1) j ≤ Ldp a b (i + 1) (j + 1) := by
      intro j
      match j with
      | 0 =>
        rw [Ldp_zero_right]
        omega
      | j + 1 =>
        rw [Ldp_succ_succ a b i (j + 1)]
        split_ifs with hm2
        · exact ihS (j + 1)
        · exact le_max_left _ _
    refine ⟨hR, ?_⟩
    intro j
    induction j with
    | zero =>
      rw [Ldp_zero_right]
      omega
    | succ j ihj =>
      rw [Ldp_succ_succ a b (i + 1) j]
      split_ifs with hm
      · exact Nat.add_le_add_right (hR j) 1
      · apply max_le
        · exact le_trans ihj (Nat.add_le_add_right (hR j) 1)
        · omega

theorem Ldp_monoc_le (a b : Nat → Int) (i : Nat) {j1 j2 : Nat}
    (h : j1 ≤ j2) : Ldp a b i j1 ≤ Ldp a b i j2 := by
  have hstep := (Ldp_monoc_lipr a b i).1
  have : ∀ d j, Ldp a b i j ≤ Ldp a b i (j + d) := by
    intro d
    induction d with
    | zero => intro j; exact le_refl _
    | succ d ihd =>
      intro j
      exact le_trans (ihd j) (hstep (j + d))
  have h2 := this (j2 - j1) j1
  rw [show j1 + (j2 - j1) = j2 by omega] at h2
  exact h2

/-- Row expansion of the LCS recurrence: adding row i changes the dp value
to the maximum of the previous value and the best match extension. -/
theorem Ldp_step (a b : Nat → Int) (i : Nat) :
    ∀ cc, Ldp a b (i + 1) cc = max (Ldp a b i cc) (LdpMatch a b i cc) := by
  intro cc
  induction cc with
  | zero =>
    rw [Ldp_zero_right, Ldp_zero_right]
    rfl
  | succ cc ih =>
    unfold LdpMatch
    rw [List.range_succ, List.filter_append, List.foldl_append]
    rw [Ldp_succ_succ]
    by_cases hm : b cc = a i
    · rw [if_pos hm.symm]
      have hfl : List.filter (fun j => decide (b j = a i)) [cc] = [cc] := by
        simp [hm]
      rw [hfl]
      show Ldp a b i cc + 1 =
        max (Ldp a b i (cc + 1))
          (max (LdpMatch a b i cc) (1 + Ldp a b i cc))
      have h1 : Ldp a b i (cc + 1) ≤ Ldp a b i cc + 1 :=
        (Ldp_lipc_monor a b i).1 cc
      have h2 : LdpMatch a b i cc ≤ 1 + Ldp a b i cc := by
        unfold LdpMatch
        apply foldl_maxN_le
        · omega
        · intro j hj
          rw [List.mem_filter, List.mem_range] at hj
          have := Ldp_monoc_le a b i (le_of_lt hj.1)
          omega
      omega
    · rw [if_neg (fun he => hm he.symm)]
      have hfl : List.filter (fun j => decide (b j = a i)) [cc] = [] := by
        simp [hm]
      rw [hfl]
      show max (Ldp a b (i + 1) cc) (Ldp a b i (cc + 1)) =
        max (Ldp a b i (cc + 1)) (LdpMatch a b i cc)
      rw [ih]
      have h1 : Ldp a b i cc ≤ Ldp a b i (cc + 1) :=
        (Ldp_monoc_lipr a b i).1 cc
      omega

theorem range_filter_lt (cc : Nat) :
    ∀ m, cc ≤ m →
      (List.range m).filter (fun j => decide (j < cc)) = List.range cc := by
  intro m
  induction m with
  | zero =>
    intro h
    have hc : cc = 0 := by omega
    subst hc
    rfl
  | succ m ih =>
    intro h
    rcases Nat.lt_or_ge cc (m + 1) with h2 | h2
    · rw [List.range_succ, List.filter_append, ih (by omega)]
      have hone : List.filter (fun j => decide (j < cc)) [m] = [] := by
        simp
        omega
      rw [hone, List.append_nil]
    · have hc : cc = m + 1 := by omega
      subst hc
      apply List.filter_eq_self.mpr
      intro j hj
      rw [List.mem_range] at hj
      exact decide_eq_true hj

/-- The chain length over the arrows of (a, b) restricted to columns below
cc is the classic LCS dp value of a[0..i) versus b[0..cc). -/
theorem chainMax_eq_Ldp (a b : List Int) :
    ∀ i (cc : Nat), cc ≤ b.length →
      chainMax (arrowsOf a b) i ((cc : Nat) : Int) =
        Ldp (fun x => a.getD x 0) (fun x => b.getD x 0) i cc := by
  intro i
  induction i with
  | zero =>
    intro cc _
    rw [Ldp_zero_left]
    rfl
  | succ i ih =>
    intro cc hcc
    rw [Ldp_step]
    show max (chainMax (arrowsOf a b) i cc) _ =
      max (Ldp (fun x => a.getD x 0) (fun x => b.getD x 0) i cc)
        (LdpMatch (fun x => a.getD x 0) (fun x => b.getD x 0) i cc)
    rw [ih cc hcc]
    congr 1
    show ((arrowsOf a b i).filter
        (fun v => decide (v < ((cc : Nat) : Int)))).foldl
        (fun acc j => max acc (1 + chainMax (arrowsOf a b) i j)) 0 = _
    have hrow : arrowsOf a b i = ((List.range b.length).filter
        (fun j => decide (b.getD j 0 = a.getD i 0))).map
        (fun j : Nat => (j : Int)) := by
      unfold arrowsOf
      rfl
    rw [hrow, List.filter_map, List.foldl_map, List.filter_filter]
    have hpred : (List.range b.length).filter
        (fun j => ((fun v => decide (v < ((cc : Nat) : Int))) ∘
          (fun j : Nat => (j : Int))) j &&
          decide (b.getD j 0 = a.getD i 0)) =
        (List.range b.length).filter
          (fun j => decide (j < cc) && decide (b.getD j 0 = a.getD i 0)) := by
      apply List.filter_congr
      intro j _
      congr 1
      simp only [Function.comp]
      rw [decide_eq_decide]
      exact Nat.cast_lt
    rw [hpred]
    have hsplit : (List.range b.length).filter
        (fun j => decide (j < cc) && decide (b.getD j 0 = a.getD i 0)) =
        (List.range cc).filter
          (fun j => decide (b.getD j 0 = a.getD i 0)) := by
      rw [← range_filter_lt cc b.length hcc, List.filter_filter]
      apply List.filter_congr
      intro j _
      exact Bool.and_comm _ _
    rw [hsplit]
    unfold LdpMatch
    apply foldl_congr_mem
    intro acc j hj
    rw [List.mem_filter, List.mem_range] at hj
    rw [ih j (by omega)]

/-- The inner column loop of the rolling-array reference writes the new
row of the classic LCS dp into every processed cell. -/
theorem lcs_naive_inner_spec (s1 s2 : Nat → Int) (i : Nat) (hi : 1 ≤ i) :
    ∀ fuel j (dp : Nat → Nat) prev, 1 ≤ j →
      (∀ c, c < j → dp c = Ldp s1 s2 i c) →
      (∀ c, j ≤ c → c < j + fuel → dp c = Ldp s1 s2 (i - 1) c) →
      prev = Ldp s1 s2 (i - 1) (j - 1) →
      ∀ c, c < j + fuel →
        lcs_naive_inner s1 s2 i fuel j dp prev c = Ldp s1 s2 i c := by
  intro fuel
  induction fuel with
  | zero =>
    intro j dp prev hj hlow _ _ c hc
    exact hlow c (by omega)
  | succ fuel ih =>
    intro j dp prev hj hlow hhigh hprev c hc
    show lcs_naive_inner s1 s2 i fuel (j + 1)
      (Function.update dp j
        (if s1 (i - 1) = s2 (j - 1) then prev + 1
          else max (dp j) (dp (j - 1)))) (dp j) c = Ldp s1 s2 i c
    have hLdpj : Ldp s1 s2 i j =
        if s1 (i - 1) = s2 (j - 1) then Ldp s1 s2 (i - 1) (j - 1) + 1
        else max (Ldp s1 s2 i (j - 1)) (Ldp s1 s2 (i - 1) j) := by
      have heq := Ldp_succ_succ s1 s2 (i - 1) (j - 1)
      rw [show i - 1 + 1 = i by omega, show j - 1 + 1 = j by omega] at heq
      exact heq
    apply ih (j + 1) _ (dp j) (by omega) ?_ ?_ ?_ c (by omega)
    · intro c2 hc2
      by_cases hc2j : c2 = j
      · subst hc2j
        rw [Function.update_same, hLdpj]
        split_ifs with hmatch
        · rw [hprev]
        · rw [hhigh c2 (le_refl c2) (by omega), hlow (c2 - 1) (by omega)]
          exact max_comm _ _
      · rw [Function.update_noteq hc2j]
        exact hlow c2 (by omega)
    · intro c2 hc2 hc2b
      rw [Function.update_noteq (by omega)]
      exact hhigh c2 (by omega) (by omega)
    · rw [show j + 1 - 1 = j from rfl]
      exact hhigh j (le_refl j) (by omega)

/-- The outer row loop of the rolling-array reference advances the dp row
once per remaining row. -/
theorem lcs_naive_outer_spec (s1 s2 : Nat → Int) (nn : Nat) :
    ∀ fuel i (dp : Nat → Nat), 1 ≤ i →
      (∀ c, c ≤ nn → dp c = Ldp s1 s2 (i - 1) c) →
      ∀ c, c ≤ nn →
        lcs_naive_outer s1 s2 nn fuel i dp c =
          Ldp s1 s2 (i - 1 + fuel) c := by
  intro fuel
  induction fuel with
  | zero =>
    intro i dp _ hdp c hc
    exact hdp c hc
  | succ fuel ih =>
    intro i dp hi hdp c hc
    show lcs_naive_outer s1 s2 nn fuel (i + 1)
      (lcs_naive_inner s1 s2 i nn 1 dp 0) c = Ldp s1 s2 (i - 1 + (fuel + 1)) c
    have hinner : ∀ c2, c2 ≤ nn →
        lcs_naive_inner s1 s2 i nn 1 dp 0 c2 = Ldp s1 s2 i c2 := by
      intro c2 hc2
      apply lcs_naive_inner_spec s1 s2 i hi nn 1 dp 0 (le_refl 1) ?_ ?_ ?_
        c2 (by omega)
      · intro c3 hc3
        have hc30 : c3 = 0 := by omega
        subst hc30
        rw [hdp 0 (by omega), Ldp_zero_right, Ldp_zero_right]
      · intro c3 _ hc3b
        exact hdp c3 (by omega)
      · rw [show (1 : Nat) - 1 = 0 from rfl, Ldp_zero_right]
    rw [ih (i + 1) _ (by omega) ?_ c hc]
    · rw [show i + 1 - 1 + fuel = i - 1 + (fuel + 1) by omega]
    · intro c2 hc2
      rw [hinner c2 hc2, show i + 1 - 1 = i from rfl]

theorem lcs_dp_go_spec (seq1 seq2 : List Int) :
    lcs_dp_go seq1 seq2 = Ldp (fun x => seq1.getD x 0)
      (fun x => seq2.getD x 0) seq1.length seq2.length := by
  show lcs_naive_outer (fun i => seq1.getD i 0) (fun j => seq2.getD j 0)
    seq2.length seq1.length 1 (fun _ => 0) seq2.length = _
  rw [lcs_naive_outer_spec (fun i => seq1.getD i 0)
    (fun j => seq2.getD j 0) seq2.length seq1.length 1 (fun _ => 0)
    (le_refl 1) ?_ seq2.length (le_refl _)]
  · rw [show (1 : Nat) - 1 + seq1.length = seq1.length by omega]
  · intro c _
    rw [show (1 : Nat) - 1 = 0 from rfl, Ldp_zero_left]

theorem Ldp_comm (a b : Nat → Int) : ∀ i j, Ldp a b i j = Ldp b a j i := by
  intro i
  induction i with
  | zero =>
    intro j
    rw [Ldp_zero_left, Ldp_zero_right]
  | succ i ih =>
    intro j
    induction j with
    | zero => rw [Ldp_zero_right, Ldp_zero_left]
    | succ j ihj =>
      rw [Ldp_succ_succ, Ldp_succ_succ]
      by_cases hm : a i = b j
      · rw [if_pos hm, if_pos hm.symm, ih j]
      · rw [if_neg hm, if_neg (fun he => hm he.symm), ihj, ih (j + 1)]
        exact max_comm _ _

theorem arrowsOf_sorted (a b : List Int) :
    ∀ i, ((arrowsOf a b) i).Sorted (· < ·) := by
  intro i
  unfold arrowsOf
  apply List.Pairwise.map (fun j : Nat => (j : Int))
    (fun x y (h : x < y) => by
      show ((x : Nat) : Int) < ((y : Nat) : Int)
      exact_mod_cast h)
  exact List.Pairwise.filter _ (List.pairwise_lt_range b.length)

theorem arrowsOf_lt_len (a b : List Int) :
    ∀ i, ∀ v ∈ arrowsOf a b i, v < (b.length : Int) := by
  intro i v hv
  unfold arrowsOf at hv
  obtain ⟨j, hj, rfl⟩ := List.mem_map.mp hv
  have hjm : j < b.length := List.mem_range.mp (List.mem_filter.mp hj).1
  exact_mod_cast hjm

/-- C2: the cordon-based LCS solver returns the naive O(nm) dynamic
programming LCS value (under the representability side condition that the
second sequence's length fits in an int, so that column indices are below
the numeric-limits sentinel). -/
theorem claim_C2 (a b : List Int) (par : Bool) (g : Int)
    (hm : (b.length : Int) ≤ intMax) :
    lcs_compute a b par g = lcs_dp_naive a b := by
  have HBa : ∀ i, ∀ v ∈ arrowsOf a b i, v < intMax := by
    intro i v hv
    exact lt_of_lt_of_le (arrowsOf_lt_len a b i v hv) hm
  unfold lcs_compute lcs_dp_naive
  by_cases hz : a.length = 0 ∨ b.length = 0
  · rw [if_pos hz]
    split_ifs with hsw
    · rw [lcs_dp_go_spec b a]
      rcases hz with h | h
      · rw [h, Ldp_zero_right]
      · rw [h, Ldp_zero_left]
    · rw [lcs_dp_go_spec a b]
      rcases hz with h | h
      · rw [h, Ldp_zero_left]
      · rw [h, Ldp_zero_right]
  · rw [if_neg hz]
    push_neg at hz
    have hL : chainMax (arrowsOf a b) a.length intMax =
        Ldp (fun x => a.getD x 0) (fun x => b.getD x 0)
          a.length b.length := by
      rw [chainMax_top_congr (arrowsOf a b) intMax ((b.length : Nat) : Int)
        HBa (arrowsOf_lt_len a b) a.length]
      exact chainMax_eq_Ldp a b a.length b.length (le_refl _)
    rw [lcs_compute_arrows_spec (arrowsOf a b) (arrowsOf_sorted a b) HBa
      a.length (a.length * b.length + 1) (by omega) ?_ par g]
    · rw [hL]
      split_ifs with hsw
      · rw [lcs_dp_go_spec b a, Ldp_comm]
      · rw [lcs_dp_go_spec a b]
    · have h1 := chainMax_le_i (arrowsOf a b) a.length intMax
      have h2 : a.length ≤ a.length * b.length :=
        Nat.le_mul_of_pos_right a.length (by omega)
      omega

theorem claim_C2_witness :
    ((([0, 1, 1, 0] : List Int).length : Int) ≤ intMax) ∧
    lcs_compute [1, 0, 1, 1, 0] [0, 1, 1, 0] false 0 =
      lcs_dp_naive [1, 0, 1, 1, 0] [0, 1, 1, 0] ∧
    lcs_compute [1, 0, 1, 1, 0] [0, 1, 1, 0] false 0 = 4 :=
  ⟨by decide, claim_C2 [1, 0, 1, 1, 0] [0, 1, 1, 0] false 0 (by decide),
    by decide⟩

/-! ## Round counting (C5) -/

theorem lis_loop_rounds (a : Nat → Int) (n : Nat) (inf : Int) :
    ∀ fuel k rounds (s : LISState), fuel + k = n →
      (lis_loop a n inf fuel s k rounds).2 = rounds + fuel := by
  intro fuel
  induction fuel with
  | zero =>
    intro k rounds s _
    rfl
  | succ fuel ih =>
    intro k rounds s hk
    rw [lis_loop, if_pos (by omega)]
    rw [ih (k + 1) (rounds + 1) _ (by omega)]
    omega

theorem le_foldl_minN {α : Type} (g : α → Nat) (l : List α) (acc b : Nat)
    (hacc : b ≤ acc) (hl : ∀ j ∈ l, b ≤ g j) :
    b ≤ l.foldl (fun a j => min a (g j)) acc := by
  induction l generalizing acc with
  | nil => exact hacc
  | cons x xs ih =>
    exact ih (min acc (g x))
      (le_min hacc (hl x (List.mem_cons_self x xs)))
      (fun j hj => hl j (List.mem_cons_of_mem x hj))

theorem sjScan_ge (D : Nat → Int) (cost : Nat → Nat → Int)
    (B : List Interval) (n j : Nat) (Dj : Int) :
    ∀ fuel i, i ≤ n + 1 → i ≤ sjScan D cost B n j Dj fuel i := by
  intro fuel
  induction fuel with
  | zero =>
    intro i hi
    exact hi
  | succ fuel ih =>
    intro i hi
    simp only [sjScan]
    split_ifs with h1 h2
    · exact le_refl i
    · exact le_trans (Nat.le_succ i) (ih (i + 1) (by omega))
    · omega

theorem sjFor_ge (D : Nat → Int) (cost : Nat → Nat → Int)
    (B : List Interval) (n j : Nat) (hj : j ≤ n) :
    j + 1 ≤ sjFor D cost B n j := by
  simp only [sjFor]
  split_ifs with h1
  · exact sjScan_ge D cost B n j _ (n + 1) (j + 1) (by omega)
  · omega

theorem windowMin_ge (D : Nat → Int) (cost : Nat → Nat → Int)
    (B : List Interval) (n l r cordon bound : Nat)
    (hc : bound ≤ cordon) (hl : bound ≤ l + 1) (hr : r ≤ n) :
    bound ≤ windowMin D cost B n l r cordon := by
  unfold windowMin
  apply le_foldl_minN
  · exact hc
  · intro k hk
    rw [List.mem_range] at hk
    have hlk : l + k ≤ n := by omega
    have := sjFor_ge D cost B n (l + k) hlk
    omega

theorem findCordonLoop_ge (D : Nat → Int) (cost : Nat → Nat → Int)
    (B : List Interval) (n now : Nat) :
    ∀ fuel t cordon, 1 ≤ t → now + 2 ≤ cordon →
      now + 2 ≤ findCordonLoop D cost B n now fuel t cordon := by
  intro fuel
  induction fuel with
  | zero =>
    intro t cordon _ hc
    exact hc
  | succ fuel ih =>
    intro t cordon ht hc
    simp only [findCordonLoop]
    split_ifs with h1 h2
    · apply windowMin_ge
      · exact hc
      · have : 1 ≤ 2 ^ (t - 1) := Nat.one_le_two_pow
        omega
      · omega
    · apply ih (t + 1) _ (by omega)
      apply windowMin_ge
      · exact hc
      · have : 1 ≤ 2 ^ (t - 1) := Nat.one_le_two_pow
        omega
      · omega
    · exact hc

theorem findCordon_ge (D : Nat → Int) (cost : Nat → Nat → Int)
    (B : List Interval) (n now : Nat) (hn : now < n) :
    now + 2 ≤ findCordon D cost B n now := by
  unfold findCordon
  exact findCordonLoop_ge D cost B n now (n + 2) 1 (n + 1) (le_refl 1)
    (by omega)

theorem glws_loop_rounds (cost : Nat → Nat → Int) (n : Nat) :
    ∀ fuel (s : GState) rounds,
      (glws_loop cost n fuel s rounds).2 ≤ rounds + (n - s.now) := by
  intro fuel
  induction fuel with
  | zero =>
    intro s rounds
    exact le_trans (le_refl rounds) (by omega)
  | succ fuel ih =>
    intro s rounds
    rw [glws_loop]
    split_ifs with h1
    · have hstep := ih (glws_step cost n s) (rounds + 1)
      have hnow : s.now + 1 ≤ (glws_step cost n s).now := by
        show s.now + 1 ≤ findCordon s.D cost s.B n s.now - 1
        have := findCordon_ge s.D cost s.B n s.now h1
        omega
      omega
    · omega

/-- C5 (amended): the LIS solver runs exactly one round per input element
(so its round count is n, not the returned answer — see the
counterexample); the LCS solver returns its round count, which is at most
the first input's length; the Convex-GLWS solver runs at most n rounds. -/
theorem claim_C5 (data a b gdata : List Int) (par : Bool) (g : Int)
    (cost : Nat → Nat → Int) (INF : Int)
    (hm : (b.length : Int) ≤ intMax) :
    (lis_compute_rounds data par g intMax).2 = data.length ∧
    lcs_compute a b par g ≤ a.length ∧
    (glws_compute_rounds gdata cost INF).2 ≤ gdata.length := by
  refine ⟨?_, ?_, ?_⟩
  · unfold lis_compute_rounds
    by_cases hn : data.length = 0
    · rw [if_pos hn, hn]
    · rw [if_neg hn]
      rw [lis_loop_rounds (fun i => data.getD i 0) data.length intMax
        data.length 0 0 _ (by omega)]
      omega
  · unfold lcs_compute
    by_cases hz : a.length = 0 ∨ b.length = 0
    · rw [if_pos hz]
      omega
    · rw [if_neg hz]
      push_neg at hz
      have HBa : ∀ i, ∀ v ∈ arrowsOf a b i, v < intMax := by
        intro i v hv
        exact lt_of_lt_of_le (arrowsOf_lt_len a b i v hv) hm
      rw [lcs_compute_arrows_spec (arrowsOf a b) (arrowsOf_sorted a b) HBa
        a.length (a.length * b.length + 1) (by omega) ?_ par g]
      · exact chainMax_le_i (arrowsOf a b) a.length intMax
      · have h1 := chainMax_le_i (arrowsOf a b) a.length intMax
        have h2 : a.length ≤ a.length * b.length :=
          Nat.le_mul_of_pos_right a.length (by omega)
        omega
  · unfold glws_compute_rounds
    by_cases hn : gdata.length = 0
    · rw [if_pos hn]
      omega
    · rw [if_neg hn]
      show (glws_loop cost gdata.length (gdata.length + 1)
        { D := fun i => if i = 0 then 0 else INF,
          B := [⟨1, gdata.length, 0⟩], now := 0 } 0).2 ≤ gdata.length
      have h2 : (glws_loop cost gdata.length (gdata.length + 1)
          { D := fun i => if i = 0 then 0 else INF,
            B := [⟨1, gdata.length, 0⟩], now := 0 } 0).2 ≤
          0 + (gdata.length - 0) :=
        glws_loop_rounds cost gdata.length (gdata.length + 1) _ 0
      omega

theorem claim_C5_witness :
    ((([9, 8] : List Int).length : Int) ≤ intMax) ∧
    (lis_compute_rounds [3, 1, 2] false 0 intMax).2 =
      ([3, 1, 2] : List Int).length ∧
    lcs_compute [1, 2] [9, 8] false 0 ≤ ([1, 2] : List Int).length ∧
    (glws_compute_rounds [1, 2] cexCost 1000).2 ≤
      ([1, 2] : List Int).length := by
  have h := claim_C5 [3, 1, 2] [1, 2] [9, 8] [1, 2] false 0 cexCost 1000
    (by decide)
  exact ⟨by decide, h.1, h.2.1, h.2.2⟩

/-! ## GLWS interval-set compactness (C9) -/

theorem chain_and {α : Type} (R S : α → α → Prop) :
    ∀ l : List α, List.Chain' R l → List.Chain' S l →
      List.Chain' (fun x y => R x y ∧ S x y) l := by
  intro l
  induction l with
  | nil => intro _ _; exact List.chain'_nil
  | cons x rest ih =>
    intro hr hs
    obtain ⟨hr1, hr2⟩ := List.chain'_cons'.mp hr
    obtain ⟨hs1, hs2⟩ := List.chain'_cons'.mp hs
    exact List.chain'_cons'.mpr
      ⟨fun y hy => ⟨hr1 y hy, hs1 y hy⟩, ih hr2 hs2⟩

theorem chain_takeWhile {α : Type} (R : α → α → Prop) (p : α → Bool) :
    ∀ l : List α, List.Chain' R l → List.Chain' R (l.takeWhile p) := by
  intro l
  induction l with
  | nil => intro _; exact List.chain'_nil
  | cons x rest ih =>
    intro hr
    obtain ⟨hr1, hr2⟩ := List.chain'_cons'.mp hr
    rw [List.takeWhile_cons]
    split_ifs with hp
    · refine List.chain'_cons'.mpr ⟨?_, ih hr2⟩
      intro y hy
      apply hr1
      match rest with
      | [] => simp at hy
      | z :: rs =>
        rw [List.takeWhile_cons] at hy
        split_ifs at hy with hpz
        · simp only [List.head?_cons, Option.mem_def, Option.some.injEq]
            at hy ⊢
          exact hy
        · simp at hy
    · exact List.chain'_nil

theorem pos_tail_ge :
    ∀ (B : List Interval) (x : Interval),
      List.Chain' (fun u v => u.r + 1 ≤ v.l) (x :: B) →
      (∀ iv ∈ x :: B, iv.l ≤ iv.r) →
      ∀ iv ∈ B, x.r + 1 ≤ iv.l := by
  intro B
  induction B with
  | nil => intro x _ _ iv hiv; cases hiv
  | cons y rest ih =>
    intro x hch hlr iv hiv
    obtain ⟨h1, h2⟩ := List.chain'_cons'.mp hch
    have hxy : x.r + 1 ≤ y.l := h1 y rfl
    rcases List.mem_cons.mp hiv with h | h
    · subst h
      exact hxy
    · have := ih y h2 (fun z hz => hlr z (List.mem_cons_of_mem x hz)) iv h
      have hylr : y.l ≤ y.r := hlr y (List.mem_cons_of_mem x
        (List.mem_cons_self y rest))
      omega

theorem filter_r_lt_eq_takeWhile (cordon : Nat) :
    ∀ (B : List Interval),
      List.Chain' (fun u v => u.r + 1 ≤ v.l) B →
      (∀ iv ∈ B, iv.l ≤ iv.r) →
      B.filter (fun iv => decide (iv.r < cordon)) =
        B.takeWhile (fun iv => decide (iv.r < cordon)) := by
  intro B
  induction B with
  | nil => intro _ _; rfl
  | cons x rest ih =>
    intro hch hlr
    obtain ⟨_, h2⟩ := List.chain'_cons'.mp hch
    rw [List.filter_cons, List.takeWhile_cons]
    by_cases hp : x.r < cordon
    · rw [if_pos (decide_eq_true hp), if_pos (decide_eq_true hp)]
      rw [ih h2 (fun z hz => hlr z (List.mem_cons_of_mem x hz))]
    · rw [if_neg (by simpa using hp), if_neg (by simpa using hp)]
      apply List.filter_eq_nil_iff.mpr
      intro iv hiv
      have hge := pos_tail_ge rest x hch hlr iv hiv
      have hivlr : iv.l ≤ iv.r := hlr iv (List.mem_cons_of_mem x hiv)
      simp only [decide_eq_true_iff]
      omega

theorem bestScan_range (D : Nat → Int) (cost : Nat → Nat → Int)
    (i0 lo : Nat) :
    ∀ fuel j jr best val, lo ≤ best → best ≤ jr → lo ≤ j →
      lo ≤ bestScan D cost i0 fuel j jr best val ∧
        bestScan D cost i0 fuel j jr best val ≤ jr := by
  intro fuel
  induction fuel with
  | zero =>
    intro j jr best val h1 h2 _
    exact ⟨h1, h2⟩
  | succ fuel ih =>
    intro j jr best val h1 h2 h3
    simp only [bestScan]
    split_ifs with hj hc
    · exact ih (j + 1) jr j _ h3 hj (by omega)
    · exact ih (j + 1) jr best _ h1 h2 (by omega)
    · exact ⟨h1, h2⟩

/-- Structure of the SMAWK interval recursion: the produced intervals tile
[il, ir] in order with predecessors drawn from [jl, jr]. -/
theorem findIntervals_spec (D : Nat → Int) (cost : Nat → Nat → Int) :
    ∀ fuel jl jr il ir, jl ≤ jr → ir + 1 ≤ il + fuel → 1 ≤ il →
      (∀ iv ∈ findIntervals D cost fuel jl jr il ir,
        il ≤ iv.l ∧ iv.l ≤ iv.r ∧ iv.r ≤ ir ∧ jl ≤ iv.j ∧ iv.j ≤ jr) ∧
      List.Chain' (fun x y => y.l = x.r + 1)
        (findIntervals D cost fuel jl jr il ir) ∧
      (il ≤ ir → ∃ h rest, findIntervals D cost fuel jl jr il ir =
        h :: rest ∧ h.l = il) ∧
      (il ≤ ir → ∃ lst, (findIntervals D cost fuel jl jr il ir).getLast? =
        some lst ∧ lst.r = ir) ∧
      (ir < il → findIntervals D cost fuel jl jr il ir = []) := by
  intro fuel
  induction fuel with
  | zero =>
    intro jl jr il ir hj hfuel hil
    refine ⟨fun iv hiv => absurd hiv (by simp [findIntervals]), ?_, ?_, ?_,
      fun _ => rfl⟩
    · simp [findIntervals]
    · intro h
      exact absurd h (by omega)
    · intro h
      exact absurd h (by omega)
  | succ fuel ih =>
    intro jl jr il ir hj hfuel hil
    by_cases hlt : ir < il
    · have heq0 : findIntervals D cost (fuel + 1) jl jr il ir = [] := by
        simp only [findIntervals, if_pos hlt]
      rw [heq0]
      exact ⟨fun iv hiv => absurd hiv (by simp), List.chain'_nil,
        fun h => absurd h (by omega), fun h => absurd h (by omega),
        fun _ => rfl⟩
    · by_cases heq : il = ir
      · simp only [findIntervals, if_neg hlt, if_pos heq]
        have hbs := bestScan_range D cost il jl (jr + 1) (jl + 1) jr jl
          (D jl + cost jl il) (le_refl jl) hj (by omega)
        refine ⟨?_, List.chain'_singleton _, ?_, ?_,
          fun h => absurd h (by omega)⟩
        · intro iv hiv
          rcases List.mem_singleton.mp hiv with rfl
          exact ⟨le_refl il, by show il ≤ ir; omega, le_refl ir,
            hbs.1, hbs.2⟩
        · intro _
          exact ⟨⟨il, ir, _⟩, [], rfl, rfl⟩
        · intro _
          exact ⟨⟨il, ir, _⟩, rfl, rfl⟩
      · have hstrict : il < ir := by omega
        simp only [findIntervals, if_neg hlt, if_neg heq]
        set im := (il + ir) / 2 with him
        have him1 : il ≤ im := by omega
        have him2 : im < ir := by omega
        set best := bestScan D cost im (jr + 1) (jl + 1) jr jl
          (D jl + cost jl im) with hbest
        have hbs := bestScan_range D cost im jl (jr + 1) (jl + 1) jr jl
          (D jl + cost jl im) (le_refl jl) hj (by omega)
        rw [← hbest] at hbs
        obtain ⟨AL, BL, CL, DL, EL⟩ := ih jl best il (im - 1) hbs.1
          (by omega) hil
        obtain ⟨AR, BR, CR, DR, ER⟩ := ih best jr (im + 1) ir hbs.2
          (by omega) (by omega)
        obtain ⟨hR, restR, hReq, hRl⟩ := CR (by omega)
        obtain ⟨lstR, hRlast, hRr⟩ := DR (by omega)
        have hRne : findIntervals D cost fuel best jr (im + 1) ir ≠ [] := by
          rw [hReq]
          exact List.cons_ne_nil hR restR
        refine ⟨?_, ?_, ?_, ?_, fun h => absurd h hlt⟩
        · intro iv hiv
          rcases List.mem_append.mp hiv with h | h
          · obtain ⟨a1, a2, a3, a4, a5⟩ := AL iv h
            exact ⟨a1, a2, by omega, a4, by omega⟩
          · rcases List.mem_cons.mp h with h2 | h2
            · subst h2
              refine ⟨him1, le_refl im, ?_, hbs.1, hbs.2⟩
              show im ≤ ir
              omega
            · obtain ⟨a1, a2, a3, a4, a5⟩ := AR iv h2
              exact ⟨by omega, a2, a3, by omega, a5⟩
        · rw [List.chain'_append]
          refine ⟨BL, ?_, ?_⟩
          · refine List.chain'_cons'.mpr ⟨?_, BR⟩
            intro y hy
            rw [hReq] at hy
            simp only [List.head?_cons, Option.mem_def,
              Option.some.injEq] at hy
            cases hy
            show hR.l = im + 1
            rw [hRl]
          · intro x hx y hy
            simp only [List.head?_cons, Option.mem_def,
              Option.some.injEq] at hy
            cases hy
            by_cases hLne : il ≤ im - 1
            · obtain ⟨lstL, hLlast, hLr⟩ := DL hLne
              rw [hLlast] at hx
              simp only [Option.mem_def, Option.some.injEq] at hx
              cases hx
              show im = x.r + 1
              omega
            · rw [EL (by omega)] at hx
              simp at hx
        · intro _
          by_cases hLne : il ≤ im - 1
          · obtain ⟨hL, restL, hLeq, hLl⟩ := CL hLne
            rw [hLeq]
            exact ⟨hL, restL ++ ⟨im, im, best⟩ ::
              findIntervals D cost fuel best jr (im + 1) ir, rfl, hLl⟩
          · rw [EL (by omega)]
            exact ⟨⟨im, im, best⟩,
              findIntervals D cost fuel best jr (im + 1) ir,
              by rw [List.nil_append], by show im = il; omega⟩
        · intro _
          rw [List.getLast?_append_of_ne_nil _
            (by exact List.cons_ne_nil _ _)]
          have hgl : (Interval.mk im im best ::
              findIntervals D cost fuel best jr (im + 1) ir).getLast? =
              (findIntervals D cost fuel best jr (im + 1) ir).getLast? := by
            rw [hReq]
            rfl
          rw [hgl, hRlast]
          exact ⟨lstR, rfl, hRr⟩

/-- Fold invariant of the updateBest compaction: processing a list whose
adjacent same-j entries are contiguous yields a reversed accumulator whose
adjacent entries are position-ordered with distinct predecessors; a
merge-closed predicate Q on entries is preserved. -/
theorem compact_fold (Q : Interval → Prop)
    (hQm : ∀ x y : Interval, Q x → Q y → Q ⟨x.l, y.r, x.j⟩) :
    ∀ (input acc : List Interval),
      (∀ iv ∈ input, iv.l ≤ iv.r) →
      (∀ iv ∈ acc, iv.l ≤ iv.r) →
      (∀ iv ∈ input, Q iv) →
      (∀ iv ∈ acc, Q iv) →
      List.Chain' (fun x y => x.r + 1 ≤ y.l ∧ (x.j = y.j → y.l = x.r + 1))
        input →
      List.Chain' (fun x y => y.r + 1 ≤ x.l ∧ y.j ≠ x.j) acc →
      (∀ b ∈ acc.head?, ∀ x ∈ input.head?,
        b.r + 1 ≤ x.l ∧ (b.j = x.j → x.l = b.r + 1)) →
      (∀ iv ∈ input.foldl compactRev acc, iv.l ≤ iv.r) ∧
      (∀ iv ∈ input.foldl compactRev acc, Q iv) ∧
      List.Chain' (fun x y => y.r + 1 ≤ x.l ∧ y.j ≠ x.j)
        (input.foldl compactRev acc) := by
  intro input
  induction input with
  | nil =>
    intro acc _ h2 _ h4 _ h6 _
    exact ⟨h2, h4, h6⟩
  | cons x rest ih =>
    intro acc h1 h2 h3 h4 h5 h6 h7
    obtain ⟨h5head, h5tail⟩ := List.chain'_cons'.mp h5
    have hxlr : x.l ≤ x.r := h1 x (List.mem_cons_self x rest)
    have hxQ : Q x := h3 x (List.mem_cons_self x rest)
    have hstep : (x :: rest).foldl compactRev acc =
        rest.foldl compactRev (compactRev acc x) := rfl
    rw [hstep]
    match acc with
    | [] =>
      have hacc : compactRev [] x = [x] := rfl
      rw [hacc]
      apply ih [x]
        (fun iv hiv => h1 iv (List.mem_cons_of_mem x hiv))
        (fun iv hiv => by
          rcases List.mem_singleton.mp hiv with rfl
          exact hxlr)
        (fun iv hiv => h3 iv (List.mem_cons_of_mem x hiv))
        (fun iv hiv => by
          rcases List.mem_singleton.mp hiv with rfl
          exact hxQ)
        h5tail (List.chain'_singleton x)
      intro b hb y hy
      simp only [List.head?_cons, Option.mem_def, Option.some.injEq] at hb
      cases hb
      exact h5head y hy
    | b :: rest2 =>
      have hblink := h7 b (by simp) x (by simp)
      obtain ⟨h6head, h6tail⟩ := List.chain'_cons'.mp h6
      have hblr : b.l ≤ b.r := h2 b (List.mem_cons_self b rest2)
      have hbQ : Q b := h4 b (List.mem_cons_self b rest2)
      by_cases hmerge : x.j = b.j ∧ x.l = b.r + 1
      · have hacc : compactRev (b :: rest2) x = ⟨b.l, x.r, b.j⟩ :: rest2 := by
          simp only [compactRev, if_pos hmerge]
        rw [hacc]
        apply ih (⟨b.l, x.r, b.j⟩ :: rest2)
          (fun iv hiv => h1 iv (List.mem_cons_of_mem x hiv))
          (fun iv hiv => by
            rcases List.mem_cons.mp hiv with rfl | h
            · show b.l ≤ x.r
              omega
            · exact h2 iv (List.mem_cons_of_mem b h))
          (fun iv hiv => h3 iv (List.mem_cons_of_mem x hiv))
          (fun iv hiv => by
            rcases List.mem_cons.mp hiv with rfl | h
            · exact hQm b x hbQ hxQ
            · exact h4 iv (List.mem_cons_of_mem b h))
          h5tail
        · refine List.chain'_cons'.mpr ⟨?_, h6tail⟩
          intro y hy
          have := h6head y hy
          show y.r + 1 ≤ b.l ∧ y.j ≠ b.j
          exact this
        · intro b2 hb2 y hy
          simp only [List.head?_cons, Option.mem_def,
            Option.some.injEq] at hb2
          cases hb2
          have := h5head y hy
          show x.r + 1 ≤ y.l ∧ (b.j = y.j → y.l = x.r + 1)
          refine ⟨this.1, ?_⟩
          intro hjy
          exact this.2 (by rw [hmerge.1, hjy])
      · have hacc : compactRev (b :: rest2) x = x :: b :: rest2 := by
          simp only [compactRev, if_neg hmerge]
        rw [hacc]
        apply ih (x :: b :: rest2)
          (fun iv hiv => h1 iv (List.mem_cons_of_mem x hiv))
          (fun iv hiv => by
            rcases List.mem_cons.mp hiv with rfl | h
            · exact hxlr
            · exact h2 iv h)
          (fun iv hiv => h3 iv (List.mem_cons_of_mem x hiv))
          (fun iv hiv => by
            rcases List.mem_cons.mp hiv with rfl | h
            · exact hxQ
            · exact h4 iv h)
          h5tail
        · refine List.chain'_cons'.mpr ⟨?_, h6⟩
          intro y hy
          simp only [List.head?_cons, Option.mem_def,
            Option.some.injEq] at hy
          cases hy
          refine ⟨hblink.1, ?_⟩
          intro hbj
          exact hmerge ⟨hbj.symm, hblink.2 hbj⟩
        · intro b2 hb2 y hy
          simp only [List.head?_cons, Option.mem_def,
            Option.some.injEq] at hb2
          cases hb2
          exact h5head y hy

/-- The compaction pass keeps positions increasing, removes every adjacent
same-predecessor pair (they are contiguous in a reachable merge input), and
preserves a merge-closed entry predicate. -/
theorem compactPass_spec (Q : Interval → Prop)
    (hQm : ∀ x y : Interval, Q x → Q y → Q ⟨x.l, y.r, x.j⟩)
    (input : List Interval)
    (hlr : ∀ iv ∈ input, iv.l ≤ iv.r)
    (hQ : ∀ iv ∈ input, Q iv)
    (hch : List.Chain' (fun x y => x.r + 1 ≤ y.l ∧
      (x.j = y.j → y.l = x.r + 1)) input) :
    (∀ iv ∈ compactPass input, iv.l ≤ iv.r) ∧
    (∀ iv ∈ compactPass input, Q iv) ∧
    List.Chain' (fun x y => x.r + 1 ≤ y.l ∧ x.j ≠ y.j)
      (compactPass input) := by
  obtain ⟨c1, c2, c3⟩ := compact_fold Q hQm input []
    hlr (fun iv hiv => absurd hiv (List.not_mem_nil iv))
    hQ (fun iv hiv => absurd hiv (List.not_mem_nil iv))
    hch List.chain'_nil
    (fun b hb => absurd hb (by simp))
  refine ⟨?_, ?_, ?_⟩
  · intro iv hiv
    exact c1 iv (List.mem_reverse.mp hiv)
  · intro iv hiv
    exact c2 iv (List.mem_reverse.mp hiv)
  · exact List.chain'_reverse.mpr c3

/-- C9: after a round's interval-set update (retained old entries merged
with the freshly computed SMAWK intervals, then compacted), no two
adjacent entries of B share the same predecessor j.  The hypotheses are
the reachable-state invariant, which the conclusion re-establishes for the
next round (it holds trivially for the initial B = [(1, n, 0)]). -/
theorem claim_C9 (cost : Nat → Nat → Int) (n : Nat) (s : GState)
    (hnow : s.now < n)
    (hpos : List.Chain' (fun x y => x.r + 1 ≤ y.l) s.B)
    (hlr : ∀ iv ∈ s.B, iv.l ≤ iv.r)
    (hj : ∀ iv ∈ s.B, iv.j ≤ s.now)
    (hdist : List.Chain' (fun x y => x.j ≠ y.j) s.B) :
    List.Chain' (fun x y => x.j ≠ y.j) (glws_step cost n s).B ∧
    List.Chain' (fun x y => x.r + 1 ≤ y.l) (glws_step cost n s).B ∧
    (∀ iv ∈ (glws_step cost n s).B, iv.l ≤ iv.r) ∧
    (∀ iv ∈ (glws_step cost n s).B, iv.j ≤ (glws_step cost n s).now) := by
  have hcord := findCordon_ge s.D cost s.B n s.now hnow
  set c := findCordon s.D cost s.B n s.now with hc
  set D1 := finalizeLoop cost s.B c (n + 1) (s.now + 1) s.D with hD1
  have hstepB : (glws_step cost n s).B = compactPass
      (s.B.filter (fun iv => decide (iv.r < c)) ++
        findIntervals D1 cost (n + 2) (s.now + 1) (c - 1) c n) := rfl
  have hstepNow : (glws_step cost n s).now = c - 1 := rfl
  set F := s.B.filter (fun iv => decide (iv.r < c)) with hF
  set New := findIntervals D1 cost (n + 2) (s.now + 1) (c - 1) c n with hNew
  have hFtake := filter_r_lt_eq_takeWhile c s.B hpos hlr
  have hFpos : List.Chain' (fun x y => x.r + 1 ≤ y.l) F := by
    rw [hF, hFtake]
    exact chain_takeWhile _ _ s.B hpos
  have hFdist : List.Chain' (fun x y => x.j ≠ y.j) F := by
    rw [hF, hFtake]
    exact chain_takeWhile _ _ s.B hdist
  have hFmemB : ∀ iv ∈ F, iv ∈ s.B := by
    intro iv hiv
    rw [hF] at hiv
    exact List.mem_of_mem_filter hiv
  have hFr : ∀ iv ∈ F, iv.r < c := by
    intro iv hiv
    rw [hF] at hiv
    exact of_decide_eq_true (List.mem_filter.mp hiv).2
  obtain ⟨AN, BN, CN, DN, EN⟩ := findIntervals_spec D1 cost (n + 2)
    (s.now + 1) (c - 1) c n (by omega) (by omega) (by omega)
  rw [← hNew] at AN BN CN DN EN
  have hRinF : List.Chain' (fun x y => x.r + 1 ≤ y.l ∧
      (x.j = y.j → y.l = x.r + 1)) F :=
    (chain_and _ _ F hFpos hFdist).imp
      (fun a b h => ⟨h.1, fun hjj => absurd hjj h.2⟩)
  have hRinN : List.Chain' (fun x y => x.r + 1 ≤ y.l ∧
      (x.j = y.j → y.l = x.r + 1)) New :=
    BN.imp (fun a b he => ⟨le_of_eq he.symm, fun _ => he⟩)
  have hbound : ∀ x ∈ F.getLast?, ∀ y ∈ New.head?,
      x.r + 1 ≤ y.l ∧ (x.j = y.j → y.l = x.r + 1) := by
    intro x hx y hy
    have hxF : x ∈ F := List.mem_of_mem_getLast? hx
    have hxr : x.r < c := hFr x hxF
    have hxj : x.j ≤ s.now := hj x (hFmemB x hxF)
    by_cases hcn : c ≤ n
    · obtain ⟨hN, restN, hNeq, hNl⟩ := CN hcn
      rw [hNeq] at hy
      simp only [List.head?_cons, Option.mem_def, Option.some.injEq] at hy
      cases hy
      have hNmem : y ∈ New := by
        rw [hNeq]
        exact List.mem_cons_self y restN
      have hNj := (AN y hNmem).2.2.2.1
      refine ⟨?_, ?_⟩
      · rw [hNl]
        omega
      · intro hjj
        omega
    · rw [EN (by omega)] at hy
      simp at hy
  have hmerged_lr : ∀ iv ∈ F ++ New, iv.l ≤ iv.r := by
    intro iv hiv
    rcases List.mem_append.mp hiv with h | h
    · exact hlr iv (hFmemB iv h)
    · exact (AN iv h).2.1
  have hmergedQ : ∀ iv ∈ F ++ New, iv.j ≤ c - 1 := by
    intro iv hiv
    rcases List.mem_append.mp hiv with h | h
    · have h2 := hj iv (hFmemB iv h)
      have h4 : s.now < c := by
        have h5 : s.now < s.now + 2 := Nat.lt_add_of_pos_right (by norm_num)
        exact Nat.lt_of_lt_of_le h5 hcord
      exact le_trans h2 (Nat.le_pred_of_lt h4)
    · exact (AN iv h).2.2.2.2
  have hch := List.chain'_append.mpr ⟨hRinF, hRinN, hbound⟩
  obtain ⟨r1, r2, r3⟩ := compactPass_spec (fun iv => iv.j ≤ c - 1)
    (fun x y hx _ => hx) (F ++ New) hmerged_lr hmergedQ hch
  rw [hstepB, hstepNow]
  exact ⟨r3.imp (fun a b h => h.2), r3.imp (fun a b h => h.1), r1, r2⟩

theorem claim_C9_witness :
    ((0 : Nat) < 2 ∧
      List.Chain' (fun x y : Interval => x.r + 1 ≤ y.l)
        ([⟨1, 2, 0⟩] : List Interval) ∧
      (∀ iv ∈ ([⟨1, 2, 0⟩] : List Interval), iv.l ≤ iv.r) ∧
      (∀ iv ∈ ([⟨1, 2, 0⟩] : List Interval), iv.j ≤ 0) ∧
      List.Chain' (fun x y : Interval => x.j ≠ y.j)
        ([⟨1, 2, 0⟩] : List Interval)) ∧
    List.Chain' (fun x y : Interval => x.j ≠ y.j)
      (glws_step cexCost 2
        ⟨fun i => if i = 0 then 0 else 1000, [⟨1, 2, 0⟩], 0⟩).B := by
  have h := claim_C9 cexCost 2
    ⟨fun i => if i = 0 then 0 else 1000, [⟨1, 2, 0⟩], 0⟩
    (by decide) (List.chain'_singleton _) (by decide) (by decide)
    (List.chain'_singleton _)
  exact ⟨⟨by decide, List.chain'_singleton _, by decide, by decide,
    List.chain'_singleton _⟩, h.1⟩

end ParallelDP
